import Mathlib

/-!
Shallow embedding of `compressed_dictionary/compressed_dictionary.py`
(class `CompressedDictionary`), used to verify the natural-language
specification of the repository.

Modelling conventions:
* Python `bytes` are `List Nat` (each element a byte value `< 256` where the
  code produces them).
* A file handle open for reading is the list of bytes not yet consumed;
  each read primitive returns the value read together with the remaining
  bytes.  `fd.read(n)` returns up to `n` bytes and never raises, exactly as
  in Python.
* Python `dict` is an insertion-ordered association list `List (Int × α)`;
  assignment to an existing key replaces the value in place, assignment to
  a fresh key appends.
* Exceptions are modelled by `Except`/`Option` results; the distinct raise
  sites of the source are distinguished by the `PyErr` constructors.
* The external compressor modules (`lzma`, `gzip`, `bz2`) and the external
  `json`/UTF-8 text codecs are out-of-scope collaborators (spec sections 1
  and 4.2); they are modelled minimally but faithfully to their essential
  contracts: each compression algorithm has its own self-identifying format
  (magic header) and round-trips, and the metadata serialization is an
  injective encoding of the `compression` attribute.
-/

namespace CompDict

/-- Python `bytes`: a list of byte values. -/
abbrev Bytes := List Nat

/-- Little-endian byte encoding of a natural number on `l` bytes
(the core of `int.to_bytes(l, byteorder="little")`). -/
def natToLE : Nat → Nat → Bytes
  | 0, _ => []
  | l + 1, n => n % 256 :: natToLE l (n / 256)

/-- `CompressedDictionary.bytes2int`: `int.from_bytes(b, byteorder="little")`. -/
def bytes2int : Bytes → Nat
  | [] => 0
  | b :: r => b + 256 * bytes2int r

/-- `CompressedDictionary.int2bytes(integer, length)` for an explicit `length`
(the only way the class calls it: `length = LINE_LENGTH_BYTES`).
`int.to_bytes` raises `OverflowError` when the integer needs more bytes,
modelled by `none`. -/
def int2bytes (integer : Nat) (length : Nat) : Option Bytes :=
  if integer < 256 ^ length then some (natToLE length integer) else none

/-- `CompressedDictionary.LINE_LENGTH_BYTES = 4`. -/
def LINE_LENGTH_BYTES : Nat := 4

/-- `CompressedDictionary.write_line`: header (payload length on 4 bytes,
little endian) followed by the payload.  Returns the bytes appended to the
file, `none` when `int.to_bytes` overflows. -/
def write_line (data : Bytes) : Option Bytes :=
  match int2bytes data.length LINE_LENGTH_BYTES with
  | none => none
  | some hdr => some (hdr ++ data)

/-- `CompressedDictionary.read_line(fd)`.  `fd.read(4)` returns up to 4
bytes; an empty result signals end of data (`None`); otherwise the bytes
read are interpreted as the payload length and `fd.read(payload_length)`
returns up to that many bytes.  No branch of the source can raise.
Result: the value returned together with the not-yet-consumed bytes. -/
def read_line (fd : Bytes) : Option Bytes × Bytes :=
  let hdr := fd.take LINE_LENGTH_BYTES
  if hdr.isEmpty then (none, fd.drop LINE_LENGTH_BYTES)
  else
    let n := bytes2int hdr
    let rest := fd.drop LINE_LENGTH_BYTES
    (some (rest.take n), rest.drop n)

/-- `struct.pack(f"i{len(value)}s", key, value)`: the key as a 4-byte
little-endian two's-complement signed integer, followed by the raw value
bytes.  `struct.error` (modelled by `none`) when the key does not fit in a
signed 32-bit integer. -/
def packKeyValue (key : Int) (value : Bytes) : Option Bytes :=
  if -(2 ^ 31) ≤ key ∧ key < 2 ^ 31 then
    some (natToLE 4 (key % 2 ^ 32).toNat ++ value)
  else none

/-- Value of a 4-byte little-endian two's-complement signed integer. -/
def sint32OfBytes (b : Bytes) : Int :=
  if bytes2int b < 2 ^ 31 then (bytes2int b : Int) else (bytes2int b : Int) - 2 ^ 32

/-- `struct.unpack(f"i{len(line) - 4}s", line)`: the first 4 bytes as a
signed little-endian integer, the remainder as the value.  When the line is
shorter than 4 bytes the format string has a negative count and `struct`
raises (modelled by `none`). -/
def unpackKeyValue (line : Bytes) : Option (Int × Bytes) :=
  if line.length < 4 then none
  else some (sint32OfBytes (line.take 4), line.drop 4)

/-- `CompressedDictionary.write_key_value_line`. -/
def write_key_value_line (key : Int) (value : Bytes) : Option Bytes :=
  match packKeyValue key value with
  | none => none
  | some data => write_line data

/-- Distinct error outcomes of the source, by raise site.  All the
explicitly raised errors of the class are Python `ValueError`s; `structError`
and `overflowError` model errors raised inside `struct.pack`/`int.to_bytes`. -/
inductive PyErr where
  /-- `check_valid_compression` / `__init__`: unknown compression name. -/
  | invalidCompression
  /-- `merge` / `merge_`: `other` uses a different compression (ValueError). -/
  | incompatible
  /-- `merge`: common key between `self` and `other` with `reset_keys=False`. -/
  | duplicateKeyMerge (k : Int)
  /-- `merge_`: common key between `self` and `other` with `reset_keys=False`. -/
  | duplicateKeyMergeInPlace (k : Int)
  /-- `combine_on_disk`: duplicated key detected with `reset_keys=False`. -/
  | duplicateKeyOnDisk
  /-- `max(self.keys())` on an empty dictionary: builtin
  `ValueError: max() arg is an empty sequence`. -/
  | emptyMax
  /-- `combine` / `combine_on_disk` called with no dictionaries. -/
  | noDictionaries
  /-- `struct.pack` key out of range for format `i`. -/
  | structError
  /-- `int.to_bytes` overflow in `int2bytes`. -/
  | overflowError
  /-- `load` / `combine_on_disk` on a file whose first record is absent:
  `bytes2str(None)` raises `AttributeError`. -/
  | attributeError
  /-- `json.loads` failure on the metadata record. -/
  | jsonError
  /-- decompression failure (`OSError`/`LZMAError` from
  `ALLOWED_COMPRESSIONS[...].decompress`, not a `ValueError`): raised inside
  `_convert_value`, or inside `__getitem__` when it is reached from the
  membership test `key in mapping` (`Mapping.__contains__` evaluates
  `self[key]`, which decompresses the stored payload under the mapping's
  own `compression` attribute). -/
  | decompressError
  /-- `split`: both or neither of `parts` and `parts_length` given (ValueError). -/
  | splitArgs
  /-- `split`: division by zero in `divmod`/`math.ceil` (ZeroDivisionError). -/
  | zeroDivision
  deriving DecidableEq, Repr

/-- Which modelled errors surface as a Python `ValueError`. -/
def PyErr.isValueError : PyErr → Bool
  | .invalidCompression => true
  | .incompatible => true
  | .duplicateKeyMerge _ => true
  | .duplicateKeyMergeInPlace _ => true
  | .duplicateKeyOnDisk => true
  | .emptyMax => true
  | .noDictionaries => true
  | .splitArgs => true
  | _ => false

/-- `CompressedDictionary.read_key_value_line(fd)`: read one line and unpack
it; `None` when there is no more data. -/
def read_key_value_line (fd : Bytes) : Except PyErr (Option (Int × Bytes)) × Bytes :=
  match read_line fd with
  | (none, rest) => (.ok none, rest)
  | (some line, rest) =>
    match unpackKeyValue line with
    | none => (.error .structError, rest)
    | some kv => (.ok (some kv), rest)

/-! ### The in-memory dictionary

Python `dict` (insertion ordered) as an association list. -/

/-- The keys of a content dictionary, in insertion order (`self.keys()`). -/
def keysOf (l : List (Int × Bytes)) : List Int := l.map Prod.fst

/-- `key in dict`. -/
def containsKey (l : List (Int × Bytes)) (k : Int) : Bool :=
  l.any (fun p => p.1 == k)

/-- `dict[key] = value`: replace in place when the key is present, append
otherwise (CPython insertion-order semantics).  This is the model of
`self._content[key] = value`, i.e. of `__add_already_compresses_value__`
and of `__setitem__` after encoding. -/
def dinsert (l : List (Int × Bytes)) (k : Int) (v : Bytes) : List (Int × Bytes) :=
  if containsKey l k then l.map (fun p => if p.1 == k then (k, v) else p)
  else l ++ [(k, v)]

/-- `dict[key]` lookup on the raw content (`__get_without_decompress_value__`). -/
def dlookup (l : List (Int × Bytes)) (k : Int) : Option Bytes :=
  match l with
  | [] => none
  | p :: r => if p.1 == k then some p.2 else dlookup r k

/-- The `CompressedDictionary` state: the `compression` attribute and the
`_content` mapping from integer keys to raw compressed payloads. -/
structure CD where
  compression : String
  content : List (Int × Bytes)
  deriving DecidableEq, Repr

/-- `CompressedDictionary.ALLOWED_COMPRESSIONS` (its keys, in order). -/
def ALLOWED_COMPRESSIONS : List String := ["xz", "gzip", "bz2"]

/-- `CompressedDictionary.check_valid_compression(compression, raise_error=False)`. -/
def check_valid_compression (c : String) : Bool := ALLOWED_COMPRESSIONS.contains c

/-- `CompressedDictionary.compatible`: same `compression` attribute. -/
def compatible (a b : CD) : Bool := a.compression == b.compression

/-! ### Model of the external compressors and text codecs

The compressor modules (`lzma`, `gzip`, `bz2`) and the `json`/UTF-8 codecs
are external collaborators (spec sections 1, 4.2).  They are modelled by
their essential contract: each algorithm produces a self-identifying
compressed format (a distinct magic header) and decompression succeeds
exactly on payloads of its own format, returning the original bytes.  A
value is identified with its canonical text serialization as bytes, so the
(bijective) json+utf8 layer is the identity of the model. -/

/-- Magic header distinguishing the three compression formats. -/
def algTag : String → Nat
  | "xz" => 0
  | "gzip" => 1
  | "bz2" => 2
  | _ => 255

/-- Model of `ALLOWED_COMPRESSIONS[compression].compress`. -/
def algCompress (alg : String) (data : Bytes) : Bytes := algTag alg :: data

/-- Model of `ALLOWED_COMPRESSIONS[compression].decompress`: succeeds exactly
on payloads carrying this algorithm's magic header. -/
def algDecompress (alg : String) (payload : Bytes) : Option Bytes :=
  match payload with
  | [] => none
  | t :: rest => if t = algTag alg then some rest else none

/-- `CompressedDictionary._convert_value`: decompress under the input
algorithm, recompress under the output algorithm. -/
def convertValue (v : Bytes) (cin cout : String) : Except PyErr Bytes :=
  match algDecompress cin v with
  | none => .error .decompressError
  | some raw => .ok (algCompress cout raw)

/-- The spec's content invariant (section 3): every stored payload is the
compression, under the dictionary's own `compression` attribute, of the
serialization of some value — equivalently, decompressing every stored
payload under that attribute succeeds. -/
def contentInvariant (d : CD) : Bool :=
  d.content.all (fun p => (algDecompress d.compression p.2).isSome)

/-- `key in mapping` for a `CompressedDictionary`: the class inherits
`Mapping.__contains__`, which evaluates `self[key]` and turns a `KeyError`
into `False`.  `__getitem__` first looks the key up in `_content` (the
`KeyError` site) and then decompresses the stored payload under the
mapping's own `compression` attribute (`alg`), so when the key is present
but its payload does not decompress under `alg` the membership test itself
raises the decompression error instead of returning a Bool. -/
def containsGetItem (alg : String) (l : List (Int × Bytes)) (k : Int) :
    Except PyErr Bool :=
  match dlookup l k with
  | none => .ok false
  | some v =>
    match algDecompress alg v with
    | none => .error .decompressError
    | some _ => .ok true

/-- Model of `str2bytes(json.dumps({'compression': c}))`: an injective byte
encoding of the metadata object dumped by `dump` (the json and utf8 layers
are external collaborators). -/
def encodeSpecs (c : String) : Bytes := c.data.map Char.toNat

/-- Partial inverse of `encodeSpecs` on the metadata records that `dump`
produces: model of `json.loads(bytes2str(...))` followed by the `setattr`
loop of `load` (which sets the `compression` attribute). -/
def decodeSpecs (b : Bytes) : Option String :=
  if b = encodeSpecs "xz" then some "xz"
  else if b = encodeSpecs "gzip" then some "gzip"
  else if b = encodeSpecs "bz2" then some "bz2"
  else none

/-! ### dump and load -/

/-- The key-value record section of `CompressedDictionary.dump` (the loop
over `self.keys()` in insertion order, with the default `limit=None`). -/
def dumpEntries : List (Int × Bytes) → Option Bytes
  | [] => some []
  | (k, v) :: r =>
    match write_key_value_line k v with
    | none => none
    | some line =>
      match dumpEntries r with
      | none => none
      | some rest => some (line ++ rest)

/-- `CompressedDictionary.dump` (default `limit=None`): metadata record
followed by one key-value record per entry, in insertion order.  `none`
models an exception escaping from `struct.pack`/`int.to_bytes`. -/
def dump (d : CD) : Option Bytes :=
  match write_line (encodeSpecs d.compression) with
  | none => none
  | some hdr =>
    match dumpEntries d.content with
    | none => none
    | some body => some (hdr ++ body)

/-- The read loop of `CompressedDictionary.load` (default `limit=None`):
read key-value lines until `None`, assigning `res._content[key] = value`. -/
def loadEntries (acc : List (Int × Bytes)) (fd : Bytes) :
    Except PyErr (List (Int × Bytes)) :=
  match h : read_key_value_line fd with
  | (.error e, _) => .error e
  | (.ok none, _) => .ok acc
  | (.ok (some (k, v)), rest) => loadEntries (dinsert acc k v) rest
termination_by fd.length
decreasing_by
  have hne : fd ≠ [] := by
    intro hnil
    rw [hnil] at h
    simp [read_key_value_line, read_line] at h
  rcases hr : read_line fd with ⟨o, r2⟩
  unfold read_key_value_line at h
  rw [hr] at h
  have hrest : rest = r2 := by
    cases o with
    | none => simp at h
    | some line =>
      dsimp only at h
      cases hu : unpackKeyValue line with
      | none => rw [hu] at h; simp at h
      | some kv2 => rw [hu] at h; exact (Prod.mk.injEq _ _ _ _ ▸ h).2.symm
  have hlen : r2.length ≤ fd.length - 4 := by
    have h2 : (read_line fd).2 = r2 := by rw [hr]
    rw [← h2]
    simp only [read_line, LINE_LENGTH_BYTES]
    split
    · simp only [List.length_drop]
      omega
    · simp only [List.length_drop]
      omega
  have hpos : 0 < fd.length := List.length_pos.mpr hne
  rw [hrest]
  omega

/-- `CompressedDictionary.load` (default `limit=None`).  The fresh instance
is created with the default compression and its attributes are then set
from the parsed metadata record; an absent first record makes
`bytes2str(None)` raise. -/
def load (file : Bytes) : Except PyErr CD :=
  match read_line file with
  | (none, _) => .error .attributeError
  | (some hdr, rest) =>
    match decodeSpecs hdr with
    | none => .error .jsonError
    | some c =>
      match loadEntries [] rest with
      | .error e => .error e
      | .ok content => .ok { compression := c, content := content }

/-! ### merge, merge_ and combine -/

/-- The first loop of `CompressedDictionary.merge`: add the entries of
`self` to `res`, renumbering from `new_key` when `reset_keys` is true.
Returns the updated `res` content and `new_key` counter. -/
def mergeSelfLoop : List (Int × Bytes) → Bool → List (Int × Bytes) → Int →
    List (Int × Bytes) × Int
  | [], _, res, newKey => (res, newKey)
  | (k, v) :: r, reset, res, newKey =>
    if reset then mergeSelfLoop r reset (dinsert res newKey v) (newKey + 1)
    else mergeSelfLoop r reset (dinsert res k v) newKey

/-- The second loop of `CompressedDictionary.merge`: add the entries of
`other` to `res`; with `reset_keys=False` the membership test
`if key in res:` goes through `Mapping.__contains__`/`__getitem__`
(`containsGetItem`) and therefore decompresses the already-stored payload
under `res`'s compression `resAlg` — always the default `'bz2'`, because
`merge` creates `res = CompressedDictionary()`.  A present key whose
payload decompresses under `resAlg` raises the duplicate-key ValueError;
a present key whose payload does not decompress makes the membership test
itself raise the decompression error. -/
def mergeOtherLoop : List (Int × Bytes) → Bool → String → List (Int × Bytes) → Int →
    Except PyErr (List (Int × Bytes))
  | [], _, _, res, _ => .ok res
  | (k, v) :: r, reset, resAlg, res, newKey =>
    if reset then mergeOtherLoop r reset resAlg (dinsert res newKey v) (newKey + 1)
    else
      match containsGetItem resAlg res k with
      | .error e => .error e
      | .ok true => .error (.duplicateKeyMerge k)
      | .ok false => mergeOtherLoop r reset resAlg (dinsert res k v) newKey

/-- `CompressedDictionary.merge`.  Note the source's
`res = CompressedDictionary()` (line 345): the result is created with the
default compression `'bz2'`, whatever `self.compression` is — so both the
returned dictionary's `compression` attribute and the compression used by
the membership test of the `reset_keys=False` branch are `'bz2'`. -/
def merge (self other : CD) (reset_keys : Bool) : Except PyErr CD :=
  if compatible self other = false then .error .incompatible
  else
    match mergeSelfLoop self.content reset_keys [] 0 with
    | (res1, newKey) =>
      match mergeOtherLoop other.content reset_keys "bz2" res1 newKey with
      | .error e => .error e
      | .ok res2 => .ok { compression := "bz2", content := res2 }

/-- `max(self.keys())`: `none` on an empty dictionary (where the builtin
raises `ValueError`). -/
def maxKey : List (Int × Bytes) → Option Int
  | [] => none
  | p :: r => some ((keysOf r).foldl max p.1)

/-- `set(range(max(self.keys()) + 1)) - set(self.keys())`, as the ascending
list of its elements.  CPython's `set.pop` order on a set of small
non-negative integers is ascending; none of the verified properties depend
on the pop order. -/
def holesOf (content : List (Int × Bytes)) (mx : Int) : List Int :=
  ((List.range (mx + 1).toNat).map (fun i : Nat => (i : Int))).filter
    (fun k => !containsKey content k)

/-- The loop of `CompressedDictionary.merge_`: insert the entries of `other`
into `self`, filling the free keys first and then assigning `len(self)`,
or (with `reset_keys=False`) raising on a key already present.  The
membership test `if key in self:` goes through
`Mapping.__contains__`/`__getitem__` (`containsGetItem`) and therefore
decompresses the already-stored payload under `self`'s compression `alg`.
Returns the final content of `self` together with the raised error, if
any: `merge_` mutates `self` in place, so on error the insertions already
performed persist. -/
def mergeInPlaceLoop : List (Int × Bytes) → Bool → String → List (Int × Bytes) →
    List Int → List (Int × Bytes) × Option PyErr
  | [], _, _, selfC, _ => (selfC, none)
  | (k, v) :: r, reset, alg, selfC, free =>
    if reset then
      match free with
      | f :: fr => mergeInPlaceLoop r reset alg (dinsert selfC f v) fr
      | [] => mergeInPlaceLoop r reset alg
          (dinsert selfC ((selfC.length : Nat) : Int) v) []
    else
      match containsGetItem alg selfC k with
      | .error e => (selfC, some e)
      | .ok true => (selfC, some (.duplicateKeyMergeInPlace k))
      | .ok false => mergeInPlaceLoop r reset alg (dinsert selfC k v) free

/-- `CompressedDictionary.merge_` (in place).  The free-key set is computed
from `max(self.keys())` before the loop, for both values of `reset_keys`;
on an empty `self` the `max` call raises `ValueError`.  Returns the final
content of `self` together with the raised error, if any. -/
def merge_ (self other : CD) (reset_keys : Bool) :
    List (Int × Bytes) × Option PyErr :=
  if compatible self other = false then (self.content, some .incompatible)
  else
    match maxKey self.content with
    | none => (self.content, some .emptyMax)
    | some mx =>
      mergeInPlaceLoop other.content reset_keys self.compression self.content
        (holesOf self.content mx)

/-- The merging loop of `CompressedDictionary.combine`: left fold of
`merge_` into `res`.  On error the partial state of `res` persists (it is
`dictionaries[0]` itself). -/
def combineFold : CD → List CD → Bool → CD × Option PyErr
  | res, [], _ => (res, none)
  | res, d :: ds, reset =>
    match merge_ res d reset with
    | (c, some e) => ({ res with content := c }, some e)
    | (c, none) => combineFold { res with content := c } ds reset

/-- `CompressedDictionary.combine` together with the final state of its
first argument: the source sets `res = dictionaries[0]` (line 317) without
copying, so every `res.merge_(...)` mutates the first input in place and
the returned object is the first input itself.  The second component is
the state of `dictionaries[0]` after the call (`none` when there is no
first argument). -/
def combinePost (ds : List CD) (reset_keys : Bool) :
    Except PyErr CD × Option CD :=
  match ds with
  | [] => (.error .noDictionaries, none)
  | first :: rest =>
    if rest.all (fun d => compatible first d) then
      match combineFold first rest reset_keys with
      | (res, none) => (.ok res, some res)
      | (res, some e) => (.error e, some res)
    else (.error .incompatible, some first)

/-- `CompressedDictionary.combine`: the value returned (or the exception
raised). -/
def combine (ds : List CD) (reset_keys : Bool) : Except PyErr CD :=
  (combinePost ds reset_keys).1

/-! ### split -/

/-- The slice computation of `CompressedDictionary.split`:
`k, m = divmod(len(all_keys), parts)` and
`all_keys[i * k + min(i, m):(i + 1) * k + min(i + 1, m)]` for
`i in range(parts)` (a Python slice `l[a:b]` is `(l.drop a).take (b - a)`). -/
def splitSlices (allKeys : List Int) (parts : Nat) : List (List Int) :=
  let k := allKeys.length / parts
  let m := allKeys.length % parts
  (List.range parts).map (fun i =>
    (allKeys.drop (i * k + min i m)).take ((i + 1) * k + min (i + 1) m - (i * k + min i m)))

/-- The filling loop of `split`: `for i, k in enumerate(keys):
new.__add_already_compresses_value__(i if reset_keys else k,
self.__get_without_decompress_value__(k))`.  The keys come from
`self.keys()`, so the raw lookup always succeeds; `.getD []` merely
totalizes it. -/
def splitFillLoop (d : CD) (reset_keys : Bool) :
    List Int → Nat → List (Int × Bytes) → List (Int × Bytes)
  | [], _, acc => acc
  | k :: r, i, acc =>
    splitFillLoop d reset_keys r (i + 1)
      (dinsert acc (if reset_keys then (i : Int) else k) ((dlookup d.content k).getD []))

/-- `CompressedDictionary.split` once `parts` is known (no shuffle: the
verified claims fix `shuffle=False`, and randomness is not modelled).
`divmod(len, 0)` raises ZeroDivisionError.  The last slice is dropped when
`drop_last` is set, there are at least two slices and the first is strictly
longer than the last.  The generator is modelled as the list of the
dictionaries it yields. -/
def splitParts (d : CD) (parts : Nat) (drop_last reset_keys : Bool) :
    Except PyErr (List CD) :=
  if parts = 0 then .error .zeroDivision
  else
    let slices := splitSlices (keysOf d.content) parts
    let slices2 :=
      if 1 < slices.length ∧ (slices.headD []).length > ((slices.getLast?).getD []).length
          ∧ drop_last = true
      then slices.dropLast else slices
    .ok (slices2.map (fun ks =>
      { compression := d.compression, content := splitFillLoop d reset_keys ks 0 [] }))

/-- `CompressedDictionary.split` (with `shuffle=False`): exactly one of
`parts` and `parts_length` must be given; with `parts_length` the part
count is `math.ceil(len(self) / parts_length)`. -/
def split (d : CD) (parts parts_length : Option Nat) (drop_last reset_keys : Bool) :
    Except PyErr (List CD) :=
  match parts, parts_length with
  | none, none => .error .splitArgs
  | some _, some _ => .error .splitArgs
  | some p, none => splitParts d p drop_last reset_keys
  | none, some pl =>
    if pl = 0 then .error .zeroDivision
    else splitParts d ((d.content.length + pl - 1) / pl) drop_last reset_keys

/-! ### combine_on_disk -/

/-- The mutable state of the `combine_on_disk` writing loop: the `new_key`
counter, the `res_keys` set (as the list of keys written, most recent
first) and the bytes written to the destination so far. -/
structure DiskState where
  newKey : Int
  resKeys : List Int
  out : Bytes
  deriving DecidableEq, Repr

/-- One write step of the `combine_on_disk` loop: write the record to the
destination under a fresh sequential key (`reset_keys=True`) or the
original key with duplicate detection (`reset_keys=False`).  A `none` from
`write_key_value_line` models the exceptions escaping from
`struct.pack`/`int.to_bytes`. -/
def diskWriteRecord (reset : Bool) (st : DiskState) (k : Int) (v2 : Bytes) :
    Except PyErr DiskState :=
  if reset then
    match write_key_value_line st.newKey v2 with
    | none => .error .structError
    | some line => .ok ⟨st.newKey + 1, st.resKeys, st.out ++ line⟩
  else
    if st.resKeys.contains k then .error .duplicateKeyOnDisk
    else
      match write_key_value_line k v2 with
      | none => .error .structError
      | some line => .ok ⟨st.newKey, k :: st.resKeys, st.out ++ line⟩

/-- Statement helper: folding `diskWriteRecord` over a list of entries —
the pure model of what the copy loop does to one parsed source file. -/
def diskWriteEntries (reset : Bool) : DiskState → List (Int × Bytes) →
    Except PyErr DiskState
  | st, [] => .ok st
  | st, (k, v) :: r =>
    match diskWriteRecord reset st k v with
    | .error e => .error e
    | .ok st2 => diskWriteEntries reset st2 r

/-- Statement helper: folding `diskWriteEntries` over the parsed contents of
all source files. -/
def diskWriteDicts (reset : Bool) : DiskState → List (List (Int × Bytes)) →
    Except PyErr DiskState
  | st, [] => .ok st
  | st, l :: ls =>
    match diskWriteEntries reset st l with
    | .error e => .error e
    | .ok st2 => diskWriteDicts reset st2 ls

/-- The inner `while True` loop of `combine_on_disk` over one source file:
read key-value lines until `None`, converting the value when the source and
output compressions differ, and writing each record to the destination. -/
def diskCopyLoop (outComp fileComp : String) (reset : Bool) (st : DiskState)
    (fd : Bytes) : Except PyErr DiskState :=
  match h : read_key_value_line fd with
  | (.error e, _) => .error e
  | (.ok none, _) => .ok st
  | (.ok (some (k, v)), rest) =>
    match (if fileComp == outComp then .ok v else convertValue v fileComp outComp :
        Except PyErr Bytes) with
    | .error e => .error e
    | .ok v2 =>
      match diskWriteRecord reset st k v2 with
      | .error e => .error e
      | .ok st2 => diskCopyLoop outComp fileComp reset st2 rest
termination_by fd.length
decreasing_by
  have hne : fd ≠ [] := by
    intro hnil
    rw [hnil] at h
    simp [read_key_value_line, read_line] at h
  rcases hr : read_line fd with ⟨o, r2⟩
  unfold read_key_value_line at h
  rw [hr] at h
  have hrest : rest = r2 := by
    cases o with
    | none => simp at h
    | some line =>
      dsimp only at h
      cases hu : unpackKeyValue line with
      | none => rw [hu] at h; simp at h
      | some kv2 => rw [hu] at h; exact (Prod.mk.injEq _ _ _ _ ▸ h).2.symm
  have hlen : r2.length ≤ fd.length - 4 := by
    have h2 : (read_line fd).2 = r2 := by rw [hr]
    rw [← h2]
    simp only [read_line, LINE_LENGTH_BYTES]
    split
    · simp only [List.length_drop]
      omega
    · simp only [List.length_drop]
      omega
  have hpos : 0 < fd.length := List.length_pos.mpr hne
  rw [hrest]
  omega

/-- The outer loop of `combine_on_disk` over the source files: for each
file, re-read its metadata record and copy its key-value records. -/
def diskFilesLoop (outComp : String) (reset : Bool) (st : DiskState) :
    List Bytes → Except PyErr DiskState
  | [] => .ok st
  | f :: fs =>
    match read_line f with
    | (none, _) => .error .attributeError
    | (some hdr2, rest) =>
      match decodeSpecs hdr2 with
      | none => .error .jsonError
      | some comp2 =>
        match diskCopyLoop outComp comp2 reset st rest with
        | .error e => .error e
        | .ok st2 => diskFilesLoop outComp reset st2 fs

/-- `CompressedDictionary.combine_on_disk(destination, *dictionaries_files,
compression, reset_keys)`: the bytes written to `destination` (or the
exception raised).  Files are given as their byte contents.  The output
compression is the `compression` argument if given, else the first file's;
the output metadata record is written first, then every source file is
streamed in order. -/
def combine_on_disk (files : List Bytes) (compression : Option String)
    (reset_keys : Bool) : Except PyErr Bytes :=
  match files with
  | [] => .error .noDictionaries
  | f0 :: _ =>
    match read_line f0 with
    | (none, _) => .error .attributeError
    | (some hdr, _) =>
      match decodeSpecs hdr with
      | none => .error .jsonError
      | some firstComp =>
        match write_line (encodeSpecs (compression.getD firstComp)) with
        | none => .error .overflowError
        | some hdrOut =>
          match diskFilesLoop (compression.getD firstComp) reset_keys
              ⟨0, [], hdrOut⟩ files with
          | .error e => .error e
          | .ok st => .ok st.out

/-- Statement helper: the entries obtained by pairing consecutive integer
keys starting at `n` with the given payloads, in order. -/
def enumFrom (n : Int) : List Bytes → List (Int × Bytes)
  | [] => []
  | v :: r => (n, v) :: enumFrom (n + 1) r

/-- Statement helper: the tail appended to `self` by the `reset_keys=True`
branch of `merge_` — payloads paired with the free keys while those last,
then with `len(self)` (which grows by one per insertion). -/
def mergeTail : List Int → List Bytes → Nat → List (Int × Bytes)
  | _, [], _ => []
  | f :: fr, v :: vs, len => (f, v) :: mergeTail fr vs (len + 1)
  | [], v :: vs, len => (((len : Nat) : Int), v) :: mergeTail [] vs (len + 1)

/-! ### Concrete dictionaries used in the evaluations below -/

/-- An `'xz'` dictionary holding one valid xz payload. -/
def xzDictA : CD := { compression := "xz", content := [(0, algCompress "xz" [65])] }

/-- An empty `'xz'` dictionary. -/
def xzDictEmpty : CD := { compression := "xz", content := [] }

/-- An xz dictionary distinct from `xzDictA` but sharing its key 0. -/
def xzDictB : CD := { compression := "xz", content := [(0, algCompress "xz" [66])] }

/-- A one-entry default-compression dictionary. -/
def bz2DictA : CD := { compression := "bz2", content := [(0, [1])] }

/-- Another one-entry default-compression dictionary with the same key. -/
def bz2DictB : CD := { compression := "bz2", content := [(0, [2])] }

/-- An empty default-compression dictionary. -/
def bz2DictEmpty : CD := { compression := "bz2", content := [] }

/-- A dictionary whose only key does not fit in a signed 32-bit integer. -/
def bigKeyDict : CD := { compression := "bz2", content := [(2147483648, [7])] }

/-- A dictionary whose only key is negative. -/
def negKeyDict : CD := { compression := "bz2", content := [(-1, [1])] }

/-- A dictionary whose only key is `5` (not a contiguous range from 0). -/
def key5Dict : CD := { compression := "bz2", content := [(5, [1])] }

/-- A 17-entry dictionary with keys `0..16`. -/
def seventeenDict : CD :=
  { compression := "bz2", content := (List.range 17).map (fun i : Nat => ((i : Int), [i])) }

/-! ### Round-trip facts about the record framing -/

theorem natToLE_length (l n : Nat) : (natToLE l n).length = l := by
  induction l generalizing n with
  | zero => rfl
  | succ l ih => simpa [natToLE] using ih (n / 256)

theorem bytes2int_natToLE (l n : Nat) : bytes2int (natToLE l n) = n % 256 ^ l := by
  induction l generalizing n with
  | zero => simp [natToLE, bytes2int, Nat.mod_one]
  | succ l ih =>
    simp only [natToLE, bytes2int, ih]
    rw [pow_succ', Nat.mod_mul]

theorem bytes2int_natToLE_of_lt {l n : Nat} (h : n < 256 ^ l) :
    bytes2int (natToLE l n) = n := by
  rw [bytes2int_natToLE, Nat.mod_eq_of_lt h]

theorem write_line_eq {data out : Bytes} (h : write_line data = some out) :
    data.length < 256 ^ LINE_LENGTH_BYTES ∧
      out = natToLE LINE_LENGTH_BYTES data.length ++ data := by
  by_cases hlt : data.length < 256 ^ LINE_LENGTH_BYTES
  · rw [write_line, int2bytes, if_pos hlt] at h
    simp only [Option.some.injEq] at h
    exact ⟨hlt, h.symm⟩
  · rw [write_line, int2bytes, if_neg hlt] at h
    simp at h

theorem packKeyValue_eq {key : Int} {value data : Bytes}
    (h : packKeyValue key value = some data) :
    (-(2 ^ 31) ≤ key ∧ key < 2 ^ 31) ∧
      data = natToLE 4 (key % 2 ^ 32).toNat ++ value := by
  by_cases hr : -(2 ^ 31) ≤ key ∧ key < 2 ^ 31
  · rw [packKeyValue, if_pos hr] at h
    simp only [Option.some.injEq] at h
    exact ⟨hr, h.symm⟩
  · rw [packKeyValue, if_neg hr] at h
    simp at h

/-- Reading a line immediately after it was written yields the original
payload and leaves the rest of the stream untouched. -/
theorem read_line_write_line {data out : Bytes} (h : write_line data = some out)
    (rest : Bytes) :
    read_line (out ++ rest) = (some data, rest) := by
  obtain ⟨hlt, hout⟩ := write_line_eq h
  subst hout
  set a := natToLE LINE_LENGTH_BYTES data.length with ha
  have hlen : a.length = LINE_LENGTH_BYTES := by rw [ha]; exact natToLE_length _ _
  have hne : a.isEmpty = false := by rw [ha]; rfl
  have ht : (a ++ (data ++ rest)).take LINE_LENGTH_BYTES = a := by
    rw [← hlen]; exact List.take_left a (data ++ rest)
  have hd : (a ++ (data ++ rest)).drop LINE_LENGTH_BYTES = data ++ rest := by
    rw [← hlen]; exact List.drop_left a (data ++ rest)
  have hval : bytes2int a = data.length := by
    rw [ha]; exact bytes2int_natToLE_of_lt hlt
  unfold read_line
  rw [List.append_assoc]
  simp only [ht, hd, hne, Bool.false_eq_true, if_false, hval]
  rw [List.take_left data rest, List.drop_left data rest]

theorem sint32_natToLE_emod {key : Int} (h1 : -(2 ^ 31) ≤ key) (h2 : key < 2 ^ 31) :
    sint32OfBytes (natToLE 4 (key % 2 ^ 32).toNat) = key := by
  have hemod0 : (0 : Int) ≤ key % 2 ^ 32 := Int.emod_nonneg key (by decide)
  have hemodlt : key % 2 ^ 32 < 2 ^ 32 := Int.emod_lt_of_pos key (by decide)
  have hlt : (key % 2 ^ 32).toNat < 256 ^ 4 := by
    have h256 : (256 : Nat) ^ 4 = 2 ^ 32 := by norm_num
    rw [h256]; omega
  unfold sint32OfBytes
  rw [bytes2int_natToLE_of_lt hlt]
  split
  · omega
  · omega

theorem unpackKeyValue_packKeyValue {key : Int} {value data : Bytes}
    (h : packKeyValue key value = some data) :
    unpackKeyValue data = some (key, value) := by
  obtain ⟨⟨h1, h2⟩, hdata⟩ := packKeyValue_eq h
  subst hdata
  set a := natToLE 4 (key % 2 ^ 32).toNat with ha
  have hlen : a.length = 4 := by rw [ha]; exact natToLE_length _ _
  have hnot : ¬(a ++ value).length < 4 := by
    rw [List.length_append, hlen]; omega
  have ht : (a ++ value).take 4 = a := by rw [← hlen]; exact List.take_left a value
  have hd : (a ++ value).drop 4 = value := by rw [← hlen]; exact List.drop_left a value
  unfold unpackKeyValue
  rw [if_neg hnot, ht, hd, ha, sint32_natToLE_emod h1 h2]

/-- Reading a key-value line immediately after it was written yields the
original pair. -/
theorem read_key_value_line_write {key : Int} {value out : Bytes}
    (h : write_key_value_line key value = some out) (rest : Bytes) :
    read_key_value_line (out ++ rest) = (.ok (some (key, value)), rest) := by
  have hpack : ∃ data, packKeyValue key value = some data ∧ write_line data = some out := by
    unfold write_key_value_line at h
    cases hp : packKeyValue key value with
    | none => rw [hp] at h; exact absurd h (by simp)
    | some data => rw [hp] at h; exact ⟨data, rfl, h⟩
  obtain ⟨data, hp, hw⟩ := hpack
  unfold read_key_value_line
  rw [read_line_write_line hw rest]
  simp only [unpackKeyValue_packKeyValue hp]

/-- A successful `write_key_value_line`, given the bounds under which
`struct.pack` and `int.to_bytes` succeed. -/
theorem write_key_value_line_isSome {k : Int} {v : Bytes}
    (h1 : -(2 ^ 31) ≤ k) (h2 : k < 2 ^ 31) (h3 : 4 + v.length < 2 ^ 32) :
    ∃ line, write_key_value_line k v = some line := by
  unfold write_key_value_line packKeyValue
  rw [if_pos ⟨h1, h2⟩]
  dsimp only
  unfold write_line int2bytes
  rw [if_pos ?hlt]
  case hlt =>
    rw [List.length_append, natToLE_length]
    have h256 : (256 : Nat) ^ LINE_LENGTH_BYTES = 2 ^ 32 := by
      rw [LINE_LENGTH_BYTES]; norm_num
    rw [h256]
    omega
  exact ⟨_, rfl⟩

/-! ### Dictionary lemmas -/

theorem containsKey_iff {l : List (Int × Bytes)} {k : Int} :
    containsKey l k = true ↔ k ∈ keysOf l := by
  simp [containsKey, keysOf, List.any_eq_true, beq_iff_eq]

theorem containsKey_eq_false_iff {l : List (Int × Bytes)} {k : Int} :
    containsKey l k = false ↔ k ∉ keysOf l := by
  rw [← containsKey_iff]
  cases containsKey l k <;> simp

theorem dinsert_of_not_mem {l : List (Int × Bytes)} {k : Int} (v : Bytes)
    (h : k ∉ keysOf l) : dinsert l k v = l ++ [(k, v)] := by
  rw [dinsert, if_neg]
  rw [containsKey_eq_false_iff.mpr h]
  simp

theorem keysOf_append (l₁ l₂ : List (Int × Bytes)) :
    keysOf (l₁ ++ l₂) = keysOf l₁ ++ keysOf l₂ := by
  simp [keysOf]

theorem foldl_dinsert_append {l : List (Int × Bytes)} :
    ∀ {acc : List (Int × Bytes)}, (keysOf l).Nodup →
      (∀ k, k ∈ keysOf l → k ∉ keysOf acc) →
      l.foldl (fun a p => dinsert a p.1 p.2) acc = acc ++ l := by
  induction l with
  | nil => intro acc _ _; simp
  | cons p r ih =>
    intro acc hnd hdisj
    obtain ⟨k, v⟩ := p
    have hkeys : keysOf ((k, v) :: r) = k :: keysOf r := rfl
    rw [hkeys] at hnd hdisj
    have hk : k ∉ keysOf acc := hdisj k (by simp)
    simp only [List.foldl_cons]
    rw [dinsert_of_not_mem v hk,
      ih (List.nodup_cons.mp hnd).2 ?hdisj2]
    · simp
    case hdisj2 =>
      intro k2 hk2
      rw [keysOf_append]
      simp only [List.mem_append, not_or]
      refine ⟨hdisj k2 (by simp [hk2]), ?_⟩
      have hne : k2 ≠ k := by
        intro hEq
        exact (List.nodup_cons.mp hnd).1 (hEq ▸ hk2)
      simp [keysOf, hne]

/-! ### Metadata record round trip -/

theorem valid_compression_cases {c : String}
    (hc : check_valid_compression c = true) :
    c = "xz" ∨ c = "gzip" ∨ c = "bz2" := by
  simp [check_valid_compression, ALLOWED_COMPRESSIONS, List.contains] at hc
  rcases hc with h | h | h
  · exact Or.inl h
  · exact Or.inr (Or.inl h)
  · exact Or.inr (Or.inr h)

theorem decodeSpecs_encodeSpecs {c : String}
    (hc : check_valid_compression c = true) :
    decodeSpecs (encodeSpecs c) = some c := by
  rcases valid_compression_cases hc with h | h | h <;> subst h <;> decide

/-! ### Parsing a dumped entry section -/

theorem loadEntries_done {acc : List (Int × Bytes)} {fd rest : Bytes}
    (h : read_key_value_line fd = (.ok none, rest)) :
    loadEntries acc fd = .ok acc := by
  unfold loadEntries
  split
  · next e r2 heq => rw [h] at heq; simp at heq
  · rfl
  · next k v r2 heq => rw [h] at heq; simp at heq

theorem loadEntries_step {acc : List (Int × Bytes)} {fd rest : Bytes} {k : Int}
    {v : Bytes} (h : read_key_value_line fd = (.ok (some (k, v)), rest)) :
    loadEntries acc fd = loadEntries (dinsert acc k v) rest := by
  conv_lhs => unfold loadEntries
  split
  · next e r2 heq => rw [h] at heq; simp at heq
  · next r2 heq => rw [h] at heq; simp at heq
  · next k2 v2 r2 heq =>
    rw [h] at heq
    injection heq with h1 h2
    injection h1 with h3
    injection h3 with h4
    injection h4 with hk hv
    subst hk
    subst hv
    subst h2
    rfl

theorem loadEntries_dumpEntries {l : List (Int × Bytes)} :
    ∀ {body : Bytes}, dumpEntries l = some body → ∀ acc,
      loadEntries acc body = .ok (l.foldl (fun a p => dinsert a p.1 p.2) acc) := by
  induction l with
  | nil =>
    intro body hd acc
    simp only [dumpEntries, Option.some.injEq] at hd
    subst hd
    exact loadEntries_done (show read_key_value_line [] = (.ok none, []) from rfl)
  | cons p r ih =>
    intro body hd acc
    obtain ⟨k, v⟩ := p
    cases hw : write_key_value_line k v with
    | none => rw [dumpEntries, hw] at hd; simp at hd
    | some line =>
      cases hr : dumpEntries r with
      | none => rw [dumpEntries, hw, hr] at hd; simp at hd
      | some rest2 =>
        rw [dumpEntries, hw, hr] at hd
        simp only [Option.some.injEq] at hd
        subst hd
        rw [loadEntries_step (read_key_value_line_write hw rest2)]
        simpa using ih hr (dinsert acc k v)

theorem dumpEntries_isSome {l : List (Int × Bytes)}
    (hwf : ∀ p ∈ l, -(2 ^ 31) ≤ p.1 ∧ p.1 < 2 ^ 31 ∧ 4 + p.2.length < 2 ^ 32) :
    ∃ body, dumpEntries l = some body := by
  induction l with
  | nil => exact ⟨[], rfl⟩
  | cons p r ih =>
    obtain ⟨k, v⟩ := p
    obtain ⟨h1, h2, h3⟩ := hwf (k, v) (by simp)
    obtain ⟨line, hline⟩ := write_key_value_line_isSome h1 h2 h3
    obtain ⟨body, hbody⟩ := ih (fun q hq => hwf q (by simp [hq]))
    exact ⟨line ++ body, by rw [dumpEntries, hline, hbody]⟩

theorem write_line_specs_isSome {c : String} (hc : check_valid_compression c = true) :
    ∃ hdr, write_line (encodeSpecs c) = some hdr := by
  unfold write_line int2bytes
  rw [if_pos ?hlen]
  case hlen =>
    rcases valid_compression_cases hc with h | h | h <;> rw [h] <;> decide
  exact ⟨_, rfl⟩

/-- Loading a file made of a metadata record for `c` followed by a dumped
entry section yields exactly that dictionary. -/
theorem load_parts {c : String} (hc : check_valid_compression c = true)
    {hdr body : Bytes} {content : List (Int × Bytes)}
    (hhdr : write_line (encodeSpecs c) = some hdr)
    (hbody : dumpEntries content = some body)
    (hnd : (keysOf content).Nodup) :
    load (hdr ++ body) = .ok ⟨c, content⟩ := by
  unfold load
  rw [read_line_write_line hhdr body]
  simp only [decodeSpecs_encodeSpecs hc]
  rw [loadEntries_dumpEntries hbody [],
    foldl_dinsert_append hnd (by simp [keysOf])]
  simp only [List.nil_append]

/-! ### Claim C1 -/

/-- C1 (amended): for every dictionary with a valid compression, distinct
keys, each key representable as a signed 32-bit integer (the `struct`
format `'i'` used by `write_key_value_line`) and each payload shorter than
`2^32 - 4` bytes, dumping and loading yields exactly the original
dictionary: same `compression` attribute and the very same key-payload
list, entries written in insertion order and read back in file order. -/
theorem C1_round_trip (d : CD)
    (hc : check_valid_compression d.compression = true)
    (hnd : (keysOf d.content).Nodup)
    (hwf : ∀ p ∈ d.content, -(2 ^ 31) ≤ p.1 ∧ p.1 < 2 ^ 31 ∧ 4 + p.2.length < 2 ^ 32) :
    ∃ file, dump d = some file ∧ load file = .ok d := by
  obtain ⟨body, hbody⟩ := dumpEntries_isSome hwf
  obtain ⟨hdr, hhdr⟩ := write_line_specs_isSome hc
  refine ⟨hdr ++ body, ?_, ?_⟩
  · unfold dump
    rw [hhdr, hbody]
  · have := load_parts hc hhdr hbody hnd
    exact this

/-- C1 counterexample: the claim quantifies over dictionaries with *any*
integer keys, but `write_key_value_line` packs the key with the 4-byte
signed `struct` format `'i'`, so dumping a dictionary holding the key
`2^31` raises `struct.error` instead of producing a file. -/
theorem C1_counterexample : dump bigKeyDict = none := by decide

/-- Witness for C1: the round trip evaluated on a concrete dictionary. -/
theorem C1_witness :
    ∃ file, dump bz2DictA = some file ∧ load file = .ok bz2DictA :=
  C1_round_trip bz2DictA (by decide) (by decide) (by decide)

/-! ### Claim C7 -/

/-- C7 (amended): `read_line` signals end of stream as a non-error result
exactly when zero bytes are available; on any non-empty stream it returns
data without error: it takes up to 4 header bytes, interprets them as the
payload length, and returns up to that many following bytes — a truncated
header or a truncated payload yields (possibly empty or short) data, never
an exception. -/
theorem C7_read_line_total :
    read_line [] = (none, []) ∧
    ∀ fd : Bytes, fd ≠ [] →
      read_line fd =
        (some ((fd.drop 4).take (bytes2int (fd.take 4))),
          (fd.drop 4).drop (bytes2int (fd.take 4))) := by
  refine ⟨rfl, ?_⟩
  intro fd hfd
  cases fd with
  | nil => exact absurd rfl hfd
  | cons b r => rfl

/-- C7 counterexample: on the truncated stream `[2, 0, 0, 0, 7]` — a header
declaring 2 payload bytes, with only one available — `read_line` returns
the short data `[7]` as a successful (non-`None`) result, where the claim
requires a `FormatError`; no branch of `read_line` can fail. -/
theorem C7_counterexample : read_line [2, 0, 0, 0, 7] = (some [7], []) := by decide

/-- Witness for C7: the amended statement applied to the one-byte stream
`[5]`, whose truncated header is accepted as a length field. -/
theorem C7_witness : read_line [5] = (some [], []) := by
  have h := C7_read_line_total.2 [5] (by decide)
  exact h.trans (by decide)


/-! ### enumFrom lemmas -/

theorem enumFrom_map_snd (vs : List Bytes) : ∀ n, (enumFrom n vs).map Prod.snd = vs := by
  induction vs with
  | nil => intro n; rfl
  | cons v r ih => intro n; simp [enumFrom, ih]

theorem enumFrom_length (vs : List Bytes) : ∀ n, (enumFrom n vs).length = vs.length := by
  induction vs with
  | nil => intro n; rfl
  | cons v r ih => intro n; simp [enumFrom, ih]

theorem keysOf_enumFrom (vs : List Bytes) :
    ∀ n, keysOf (enumFrom n vs) = (List.range vs.length).map (fun i : Nat => n + (i : Int)) := by
  induction vs with
  | nil => intro n; rfl
  | cons v r ih =>
    intro n
    have hcons : keysOf (enumFrom n (v :: r)) = n :: keysOf (enumFrom (n + 1) r) := rfl
    rw [hcons, ih (n + 1), List.length_cons, List.range_succ_eq_map, List.map_cons,
      List.map_map]
    congr 1
    · simp
    · refine List.map_congr_left ?_
      intro i _
      simp only [Function.comp_apply]
      push_cast
      ring

theorem mem_keysOf_enumFrom {k : Int} {vs : List Bytes} {n : Int}
    (h : k ∈ keysOf (enumFrom n vs)) : n ≤ k ∧ k < n + vs.length := by
  rw [keysOf_enumFrom] at h
  simp only [List.mem_map, List.mem_range] at h
  obtain ⟨i, hi, hk⟩ := h
  omega

theorem enumFrom_append (xs ys : List Bytes) :
    ∀ n, enumFrom n (xs ++ ys) = enumFrom n xs ++ enumFrom (n + xs.length) ys := by
  induction xs with
  | nil => intro n; simp [enumFrom]
  | cons x r ih =>
    intro n
    have h1 : enumFrom n ((x :: r) ++ ys) = (n, x) :: enumFrom (n + 1) (r ++ ys) := rfl
    have h2 : enumFrom n (x :: r) = (n, x) :: enumFrom (n + 1) r := rfl
    have h3 : n + (((x :: r).length : Nat) : Int) = (n + 1) + (r.length : Int) := by
      rw [List.length_cons]
      push_cast
      ring
    rw [h1, h2, ih (n + 1), h3, List.cons_append]

/-! ### More dictionary lemmas -/

theorem keysOf_dinsert_of_contains {l : List (Int × Bytes)} {k : Int} (v : Bytes)
    (h : containsKey l k = true) : keysOf (dinsert l k v) = keysOf l := by
  unfold dinsert
  rw [if_pos h]
  unfold keysOf
  rw [List.map_map]
  refine List.map_congr_left ?_
  intro p _
  by_cases hk : (p.1 == k) = true
  · have hpk : p.1 = k := by simpa using hk
    simp [Function.comp, hk, hpk]
  · simp [Function.comp, hk]

theorem keysOf_dinsert_not_contains {l : List (Int × Bytes)} {k : Int} (v : Bytes)
    (h : containsKey l k = false) : keysOf (dinsert l k v) = keysOf l ++ [k] := by
  unfold dinsert
  rw [if_neg (by simp [h]), keysOf_append]
  simp [keysOf]

theorem keysOf_dinsert_mem {l : List (Int × Bytes)} {k0 k : Int} (v : Bytes)
    (h : k0 ∈ keysOf l) : k0 ∈ keysOf (dinsert l k v) := by
  cases hc : containsKey l k with
  | true => rw [keysOf_dinsert_of_contains v hc]; exact h
  | false => rw [keysOf_dinsert_not_contains v hc]; exact List.mem_append_left _ h

theorem dlookup_append_left {l : List (Int × Bytes)} {k : Int} {v : Bytes}
    (h : dlookup l k = some v) (l2 : List (Int × Bytes)) :
    dlookup (l ++ l2) k = some v := by
  induction l with
  | nil => simp [dlookup] at h
  | cons p r ih =>
    rw [dlookup] at h
    rw [List.cons_append, dlookup]
    by_cases hk : p.1 == k
    · rw [if_pos hk] at h ⊢
      exact h
    · rw [if_neg hk] at h ⊢
      exact ih h

/-! ### The merge loops -/

theorem mergeSelfLoop_reset_eq (entries : List (Int × Bytes)) :
    ∀ (res : List (Int × Bytes)) (n : Int), (∀ k, k ∈ keysOf res → k < n) →
      mergeSelfLoop entries true res n =
        (res ++ enumFrom n (entries.map Prod.snd), n + entries.length) := by
  induction entries with
  | nil => intro res n _; simp [mergeSelfLoop, enumFrom]
  | cons p r ih =>
    intro res n h
    obtain ⟨k, v⟩ := p
    have hstep : mergeSelfLoop ((k, v) :: r) true res n =
        mergeSelfLoop r true (dinsert res n v) (n + 1) := by
      simp [mergeSelfLoop]
    rw [hstep]
    have hnotmem : n ∉ keysOf res := fun hmem => lt_irrefl n (h n hmem)
    rw [dinsert_of_not_mem v hnotmem, ih (res ++ [(n, v)]) (n + 1) ?bound]
    case bound =>
      intro k2 hk2
      rw [keysOf_append] at hk2
      rcases List.mem_append.mp hk2 with h2 | h2
      · exact lt_trans (h k2 h2) (by omega)
      · have : k2 = n := by simpa [keysOf] using h2
        omega
    rw [List.append_assoc, Prod.mk.injEq]
    refine ⟨rfl, ?_⟩
    rw [List.length_cons]
    push_cast
    ring

theorem mergeOtherLoop_reset_eq (entries : List (Int × Bytes)) :
    ∀ (alg : String) (res : List (Int × Bytes)) (n : Int),
      (∀ k, k ∈ keysOf res → k < n) →
      mergeOtherLoop entries true alg res n =
        .ok (res ++ enumFrom n (entries.map Prod.snd)) := by
  induction entries with
  | nil => intro alg res n _; simp [mergeOtherLoop, enumFrom]
  | cons p r ih =>
    intro alg res n h
    obtain ⟨k, v⟩ := p
    have hstep : mergeOtherLoop ((k, v) :: r) true alg res n =
        mergeOtherLoop r true alg (dinsert res n v) (n + 1) := by
      simp [mergeOtherLoop]
    rw [hstep]
    have hnotmem : n ∉ keysOf res := fun hmem => lt_irrefl n (h n hmem)
    rw [dinsert_of_not_mem v hnotmem, ih alg (res ++ [(n, v)]) (n + 1) ?bound]
    case bound =>
      intro k2 hk2
      rw [keysOf_append] at hk2
      rcases List.mem_append.mp hk2 with h2 | h2
      · exact lt_trans (h k2 h2) (by omega)
      · have : k2 = n := by simpa [keysOf] using h2
        omega
    rw [List.append_assoc]
    rfl

/-! ### Claim C4 -/

/-- C4: for compatible `a` and `b`, `merge(a, b, reset_keys=True)` returns a
new dictionary holding exactly `len(a) + len(b)` entries whose key list is
exactly `0, 1, ..., len(a)+len(b)-1` in order — `a`'s payloads first in
`a`'s iteration order, then `b`'s in `b`'s iteration order, each raw
payload unchanged — regardless of any key overlap between `a` and `b`. -/
theorem C4_merge_reset_keys (a b : CD) (hcomp : compatible a b = true) :
    ∃ res, merge a b true = .ok res ∧
      res.content = enumFrom 0 (a.content.map Prod.snd ++ b.content.map Prod.snd) ∧
      keysOf res.content =
        (List.range (a.content.length + b.content.length)).map (fun i : Nat => (i : Int)) ∧
      res.content.map Prod.snd = a.content.map Prod.snd ++ b.content.map Prod.snd ∧
      res.content.length = a.content.length + b.content.length := by
  have hmain : merge a b true =
      .ok ⟨"bz2", enumFrom 0 (a.content.map Prod.snd ++ b.content.map Prod.snd)⟩ := by
    unfold merge
    rw [if_neg (by simp [hcomp])]
    rw [mergeSelfLoop_reset_eq a.content [] 0 (by simp [keysOf])]
    dsimp only
    rw [mergeOtherLoop_reset_eq b.content "bz2" _ _ ?bound]
    case bound =>
      intro k2 hk2
      rw [List.nil_append] at hk2
      have := mem_keysOf_enumFrom hk2
      simp only [List.length_map] at this
      omega
    rw [enumFrom_append]
    simp only [List.nil_append, List.length_map, zero_add]
  refine ⟨_, hmain, rfl, ?_, ?_, ?_⟩
  · rw [keysOf_enumFrom]
    simp only [List.length_append, List.length_map]
    refine List.map_congr_left ?_
    intro i _
    simp [Int.ofNat_eq_coe]
  · rw [enumFrom_map_snd]
  · rw [enumFrom_length]
    simp

/-- Witness for C4 at two concrete overlapping-key dictionaries. -/
theorem C4_witness :
    compatible bz2DictA bz2DictB = true ∧
    ∃ res, merge bz2DictA bz2DictB true = .ok res ∧
      res.content = enumFrom 0 (bz2DictA.content.map Prod.snd ++ bz2DictB.content.map Prod.snd) ∧
      keysOf res.content =
        (List.range (bz2DictA.content.length + bz2DictB.content.length)).map (fun i : Nat => (i : Int)) ∧
      res.content.map Prod.snd = bz2DictA.content.map Prod.snd ++ bz2DictB.content.map Prod.snd ∧
      res.content.length = bz2DictA.content.length + bz2DictB.content.length :=
  ⟨by decide, C4_merge_reset_keys bz2DictA bz2DictB (by decide)⟩


/-! ### The no-reset merge loops -/

theorem mergeSelfLoop_noreset_eq (entries : List (Int × Bytes)) :
    ∀ res n, mergeSelfLoop entries false res n =
      (entries.foldl (fun a p => dinsert a p.1 p.2) res, n) := by
  induction entries with
  | nil => intro res n; rfl
  | cons p r ih =>
    intro res n
    obtain ⟨k, v⟩ := p
    have hstep : mergeSelfLoop ((k, v) :: r) false res n =
        mergeSelfLoop r false (dinsert res k v) n := by
      simp [mergeSelfLoop]
    rw [hstep, ih]
    simp

theorem dlookup_eq_none_of_not_mem {l : List (Int × Bytes)} {k : Int}
    (h : k ∉ keysOf l) : dlookup l k = none := by
  induction l with
  | nil => rfl
  | cons p r ih =>
    have hcons : keysOf (p :: r) = p.1 :: keysOf r := rfl
    rw [hcons] at h
    simp only [List.mem_cons, not_or] at h
    rw [dlookup, if_neg ?h1]
    case h1 =>
      simp only [beq_iff_eq]
      exact fun hEq => h.1 hEq.symm
    exact ih h.2

theorem containsGetItem_not_mem {alg : String} {l : List (Int × Bytes)} {k : Int}
    (h : k ∉ keysOf l) : containsGetItem alg l k = .ok false := by
  unfold containsGetItem
  rw [dlookup_eq_none_of_not_mem h]

/-! ### Claim C5 -/

/-- C5 (code bug): on two compatible non-bz2 dictionaries sharing a key,
`merge(a, b, reset_keys=False)` never reaches its duplicate-key ValueError:
`res = CompressedDictionary()` carries the default compression `'bz2'` (the
slip of C2), and the `reset_keys=False` branch tests `if key in res:`,
which — through `Mapping.__contains__` calling `__getitem__` — decompresses
the already-stored payload under `'bz2'`; on the shared key, decompressing
the xz payload raises the decompression OSError, which is not a ValueError
at all.  The in-place `merge_` on the same input, whose membership test
decompresses under `self`'s own compression, does raise the intended
duplicate-key ValueError and leaves `self`'s content unchanged, so no
entry is dropped. -/
theorem C5_collision :
    compatible xzDictA xzDictB = true ∧
    contentInvariant xzDictA = true ∧
    contentInvariant xzDictB = true ∧
    containsKey xzDictA.content 0 = true ∧
    containsKey xzDictB.content 0 = true ∧
    merge xzDictA xzDictB false = .error .decompressError ∧
    PyErr.isValueError .decompressError = false ∧
    merge_ xzDictA xzDictB false =
      (xzDictA.content, some (.duplicateKeyMergeInPlace 0)) ∧
    PyErr.isValueError (.duplicateKeyMergeInPlace 0) = true :=
  ⟨by decide, by decide, by decide, by decide, by decide, by rfl, by decide,
    by decide, by decide⟩

/-! ### Claim C10 -/

/-- C10: `merge_` computes `max(self.keys())` before inserting anything and
for both values of `reset_keys`, so on an empty `self` it raises a
`ValueError` instead of performing the merge — the builtin empty-`max`
ValueError when `other` is compatible (the compatibility ValueError
otherwise) — and its content is left unchanged; consequently `combine` of
two or more dictionaries whose first element is empty also raises a
ValueError, again the empty-`max` one when all inputs are compatible. -/
theorem C10_empty_self_max (a : CD) (ha : a.content = []) (other : CD) (r : Bool) :
    (∃ e, merge_ a other r = (a.content, some e) ∧ e.isValueError = true ∧
      (compatible a other = true → e = .emptyMax)) ∧
    (∀ d rest, ∃ e2, combine (a :: d :: rest) r = .error e2 ∧
      e2.isValueError = true ∧
      ((d :: rest).all (fun x => compatible a x) = true → e2 = .emptyMax)) := by
  obtain ⟨acomp, acontent⟩ := a
  simp only [] at ha
  subst ha
  constructor
  · by_cases hc : compatible ⟨acomp, []⟩ other = true
    · refine ⟨.emptyMax, ?_, rfl, fun _ => rfl⟩
      unfold merge_
      rw [if_neg (by simp [hc])]
      rfl
    · have hcf : compatible ⟨acomp, []⟩ other = false := by simpa using hc
      refine ⟨.incompatible, ?_, rfl, fun h => absurd h hc⟩
      unfold merge_
      rw [if_pos hcf]
  · intro d rest
    by_cases hall : (d :: rest).all (fun x => compatible ⟨acomp, []⟩ x) = true
    · have hcd : compatible ⟨acomp, []⟩ d = true :=
        List.all_eq_true.mp hall d (by simp)
      have hmd : merge_ ⟨acomp, []⟩ d r = ([], some .emptyMax) := by
        unfold merge_
        rw [if_neg (by simp [hcd])]
        rfl
      have hfold : combineFold ⟨acomp, []⟩ (d :: rest) r =
          (⟨acomp, []⟩, some .emptyMax) := by
        unfold combineFold
        rw [hmd]
      refine ⟨.emptyMax, ?_, rfl, fun _ => rfl⟩
      unfold combine combinePost
      dsimp only
      rw [if_pos hall, hfold]
    · refine ⟨.incompatible, ?_, rfl, fun h => absurd h hall⟩
      unfold combine combinePost
      dsimp only
      rw [if_neg hall]

/-- Witness for C10: combining an empty first dictionary with a compatible
one raises the empty-`max` ValueError. -/
theorem C10_witness :
    bz2DictEmpty.content = [] ∧
    combine [bz2DictEmpty, bz2DictA] true = .error PyErr.emptyMax := by
  obtain ⟨e2, he2, _, hcompat⟩ :=
    (C10_empty_self_max bz2DictEmpty rfl bz2DictA true).2 bz2DictA []
  rw [hcompat (by decide)] at he2
  exact ⟨rfl, he2⟩

/-! ### Claim C3 -/

/-- C3 evaluation: `combine` sets `res = dictionaries[0]` without copying
and folds `merge_` into it, so the returned mapping *is* the first input,
whose content has been mutated in place: after
`combine(bz2DictA, bz2DictB, reset_keys=True)` the first input's state
equals the returned dictionary and no longer equals its original value. -/
theorem C3_combine_mutates_first :
    combinePost [bz2DictA, bz2DictB] true =
      (.ok ⟨"bz2", [(0, [1]), (1, [2])]⟩, some ⟨"bz2", [(0, [1]), (1, [2])]⟩) ∧
    some bz2DictA ≠ (combinePost [bz2DictA, bz2DictB] true).2 :=
  ⟨rfl, by decide⟩

/-! ### Claim C2 -/

/-- C2 evaluation: `merge` builds its result as `CompressedDictionary()`
with the default compression `'bz2'` and never copies `self.compression`,
so merging two compatible `'xz'` dictionaries (each satisfying the content
invariant) yields a result whose stored payload is not decompressable under
the result's own `compression` attribute: the invariant is violated. -/
theorem C2_merge_resets_compression :
    compatible xzDictA xzDictEmpty = true ∧
    contentInvariant xzDictA = true ∧
    contentInvariant xzDictEmpty = true ∧
    merge xzDictA xzDictEmpty true = .ok ⟨"bz2", [(0, algCompress "xz" [65])]⟩ ∧
    contentInvariant ⟨"bz2", [(0, algCompress "xz" [65])]⟩ = false :=
  ⟨by decide, by decide, by decide, by rfl, by decide⟩


/-! ### maxKey and the free-key set -/

theorem le_foldl_max (l : List Int) : ∀ init : Int, init ≤ l.foldl max init := by
  induction l with
  | nil => intro init; simp
  | cons x r ih =>
    intro init
    simp only [List.foldl_cons]
    exact le_trans (le_max_left init x) (ih (max init x))

theorem mem_le_foldl_max (l : List Int) :
    ∀ (init x : Int), x ∈ l → x ≤ l.foldl max init := by
  induction l with
  | nil => intro init x hx; simp at hx
  | cons y r ih =>
    intro init x hx
    simp only [List.foldl_cons]
    rcases List.mem_cons.mp hx with h | h
    · subst h
      exact le_trans (le_max_right init x) (le_foldl_max r (max init x))
    · exact ih (max init y) x h

theorem maxKey_spec {content : List (Int × Bytes)} {mx : Int}
    (h : maxKey content = some mx) : ∀ k ∈ keysOf content, k ≤ mx := by
  cases content with
  | nil => simp [maxKey] at h
  | cons p r =>
    simp only [maxKey, Option.some.injEq] at h
    subst h
    intro k hk
    have hcons : keysOf (p :: r) = p.1 :: keysOf r := rfl
    rw [hcons] at hk
    rcases List.mem_cons.mp hk with h1 | h1
    · rw [h1]
      exact le_foldl_max _ _
    · exact mem_le_foldl_max _ _ _ h1

theorem holesOf_shape {content : List (Int × Bytes)} {mx : Int} :
    ∀ f ∈ holesOf content mx, ∃ i : Nat, i < (mx + 1).toNat ∧ f = (i : Int) := by
  intro f hf
  unfold holesOf at hf
  obtain ⟨hmem, _⟩ := List.mem_filter.mp hf
  obtain ⟨i, hi, hfi⟩ := List.mem_map.mp hmem
  exact ⟨i, List.mem_range.mp hi, hfi.symm⟩

theorem holesOf_not_mem_keys {content : List (Int × Bytes)} {mx : Int} :
    ∀ f ∈ holesOf content mx, f ∉ keysOf content := by
  intro f hf
  have h2 := (List.mem_filter.mp hf).2
  exact containsKey_eq_false_iff.mp (by simpa using h2)

theorem holesOf_nodup (content : List (Int × Bytes)) (mx : Int) :
    (holesOf content mx).Nodup := by
  unfold holesOf
  refine List.Nodup.filter _ ?_
  refine List.Nodup.map ?_ (List.nodup_range _)
  intro a b hab
  have hab2 : (a : Int) = (b : Int) := hab
  omega

theorem length_filter_split (l : List Int) (p : Int → Bool) :
    (l.filter p).length + (l.filter (fun x => !p x)).length = l.length := by
  induction l with
  | nil => rfl
  | cons x r ih =>
    cases hp : p x <;> simp [List.filter_cons, hp] <;> omega

theorem holes_count {content : List (Int × Bytes)} {mx : Int}
    (hnd : (keysOf content).Nodup) :
    (mx + 1).toNat ≤ content.length + (holesOf content mx).length := by
  have hsplit := length_filter_split ((List.range (mx + 1).toNat).map (fun i : Nat => (i : Int)))
    (fun k => containsKey content k)
  have hsub : ((List.range (mx + 1).toNat).map (fun i : Nat => (i : Int))).filter
      (fun k => containsKey content k) ⊆ keysOf content := by
    intro x hx
    exact containsKey_iff.mp (List.mem_filter.mp hx).2
  have hndf : (((List.range (mx + 1).toNat).map (fun i : Nat => (i : Int))).filter
      (fun k => containsKey content k)).Nodup := by
    refine List.Nodup.filter _ ?_
    refine List.Nodup.map ?_ (List.nodup_range _)
    intro a b hab
    have hab2 : (a : Int) = (b : Int) := hab
    omega
  have hlen2 := List.Subperm.length_le (List.Nodup.subperm hndf hsub)
  have hkeys_len : (keysOf content).length = content.length := by simp [keysOf]
  have hrange_len : ((List.range (mx + 1).toNat).map (fun i : Nat => (i : Int))).length =
      (mx + 1).toNat := by simp
  unfold holesOf
  omega

/-! ### The reset-keys in-place merge loop -/

theorem mergeInPlaceLoop_reset_eq (entries : List (Int × Bytes)) :
    ∀ (alg : String) (selfC : List (Int × Bytes)) (free : List Int),
      free.Nodup →
      (∀ f ∈ free, f ∉ keysOf selfC) →
      (∀ f ∈ free, f < ((selfC.length + free.length : Nat) : Int)) →
      (∀ n : Nat, selfC.length + free.length ≤ n → ((n : Nat) : Int) ∉ keysOf selfC) →
      mergeInPlaceLoop entries true alg selfC free =
        (selfC ++ mergeTail free (entries.map Prod.snd) selfC.length, none) := by
  induction entries with
  | nil =>
    intro alg selfC free _ _ _ _
    cases free <;> simp [mergeInPlaceLoop, mergeTail]
  | cons p r ih =>
    intro alg selfC free hnd hfresh hbound hlen
    obtain ⟨k, v⟩ := p
    cases free with
    | nil =>
      have hnotmem : ((selfC.length : Nat) : Int) ∉ keysOf selfC :=
        hlen selfC.length (by simp)
      have hstep : mergeInPlaceLoop ((k, v) :: r) true alg selfC [] =
          mergeInPlaceLoop r true alg (dinsert selfC ((selfC.length : Nat) : Int) v) [] := by
        simp [mergeInPlaceLoop]
      have hL : (selfC ++ [(((selfC.length : Nat) : Int), v)]).length = selfC.length + 1 := by
        simp
      rw [hstep, dinsert_of_not_mem v hnotmem,
        ih alg (selfC ++ [(((selfC.length : Nat) : Int), v)]) [] (by simp) (by simp) (by simp)
          ?len, hL]
      case len =>
        intro n hn
        rw [hL] at hn
        simp only [List.length_nil, Nat.add_zero] at hn
        rw [keysOf_append]
        simp only [List.mem_append, not_or]
        refine ⟨hlen n (by simp; omega), ?_⟩
        have hne2 : ((n : Nat) : Int) ≠ ((selfC.length : Nat) : Int) := by omega
        simp [keysOf, hne2]
      rw [Prod.mk.injEq]
      refine ⟨?_, rfl⟩
      rw [List.append_assoc]
      rfl
    | cons f fr =>
      have hnotmem : f ∉ keysOf selfC := hfresh f (by simp)
      have hstep : mergeInPlaceLoop ((k, v) :: r) true alg selfC (f :: fr) =
          mergeInPlaceLoop r true alg (dinsert selfC f v) fr := by
        simp [mergeInPlaceLoop]
      have hL : (selfC ++ [(f, v)]).length = selfC.length + 1 := by simp
      rw [hstep, dinsert_of_not_mem v hnotmem,
        ih alg (selfC ++ [(f, v)]) fr (List.nodup_cons.mp hnd).2 ?fresh ?bound ?len, hL]
      case fresh =>
        intro f2 hf2
        rw [keysOf_append]
        simp only [List.mem_append, not_or]
        refine ⟨hfresh f2 (by simp [hf2]), ?_⟩
        have hne2 : f2 ≠ f := fun hEq => (List.nodup_cons.mp hnd).1 (hEq ▸ hf2)
        simp [keysOf, hne2]
      case bound =>
        intro f2 hf2
        have h1 := hbound f2 (by simp [hf2])
        rw [hL]
        simp only [List.length_cons] at h1
        omega
      case len =>
        intro n hn
        rw [hL] at hn
        rw [keysOf_append]
        simp only [List.mem_append, not_or]
        have hfb := hbound f (by simp)
        simp only [List.length_cons] at hfb
        refine ⟨hlen n (by simp only [List.length_cons]; omega), ?_⟩
        have hne2 : ((n : Nat) : Int) ≠ f := by omega
        simp [keysOf, hne2]
      rw [Prod.mk.injEq]
      refine ⟨?_, rfl⟩
      rw [List.append_assoc]
      rfl

theorem mergeTail_eq (vs : List Bytes) :
    ∀ (free : List Int) (len : Nat),
      mergeTail free vs len =
        free.zip vs ++ enumFrom ((len + free.length : Nat) : Int) (vs.drop free.length) := by
  induction vs with
  | nil =>
    intro free len
    cases free <;> simp [mergeTail, enumFrom]
  | cons v vs2 ih =>
    intro free len
    cases free with
    | nil =>
      have h1 : mergeTail [] (v :: vs2) len =
          (((len : Nat) : Int), v) :: mergeTail [] vs2 (len + 1) := rfl
      rw [h1, ih [] (len + 1)]
      have h2 : ((len + 1 : Nat) : Int) = ((len + 0 : Nat) : Int) + 1 := by omega
      simp only [List.length_nil, List.nil_append, List.zip_nil_left, List.drop_zero, h2]
      rfl
    | cons f fr =>
      have h1 : mergeTail (f :: fr) (v :: vs2) len =
          (f, v) :: mergeTail fr vs2 (len + 1) := rfl
      rw [h1, ih fr (len + 1)]
      have h2 : len + 1 + fr.length = len + (f :: fr).length := by
        simp only [List.length_cons]
        omega
      rw [h2]
      rfl


theorem keysOf_zip (ks : List Int) :
    ∀ vs : List Bytes, keysOf (ks.zip vs) = ks.take vs.length := by
  induction ks with
  | nil => intro vs; simp [keysOf]
  | cons k kr ih =>
    intro vs
    cases vs with
    | nil => simp [keysOf]
    | cons v vr =>
      have hcons : (k :: kr).zip (v :: vr) = (k, v) :: kr.zip vr := rfl
      rw [hcons, List.length_cons, List.take_succ_cons]
      have hkeys : keysOf ((k, v) :: kr.zip vr) = k :: keysOf (kr.zip vr) := rfl
      rw [hkeys, ih vr]

theorem mem_enumFrom {p : Int × Bytes} {vs : List Bytes} {n : Int}
    (h : p ∈ enumFrom n vs) : n ≤ p.1 ∧ p.1 < n + vs.length := by
  have hk : p.1 ∈ keysOf (enumFrom n vs) := List.mem_map_of_mem Prod.fst h
  exact mem_keysOf_enumFrom hk

/-! ### Claim C6 -/

theorem merge_reset_characterization (a b : CD) (hcomp : compatible a b = true)
    (hne : a.content ≠ []) (hnd : (keysOf a.content).Nodup) :
    ∃ mx, maxKey a.content = some mx ∧
      merge_ a b true =
        (a.content ++ mergeTail (holesOf a.content mx) (b.content.map Prod.snd)
          a.content.length, none) := by
  have hm : ∃ mx, maxKey a.content = some mx := by
    cases hcontent : a.content with
    | nil => exact absurd hcontent hne
    | cons p r => rw [maxKey]; exact ⟨_, rfl⟩
  obtain ⟨mx, hmx⟩ := hm
  refine ⟨mx, hmx, ?_⟩
  unfold merge_
  rw [if_neg (by simp [hcomp]), hmx]
  refine mergeInPlaceLoop_reset_eq b.content a.compression a.content (holesOf a.content mx)
    (holesOf_nodup _ _) holesOf_not_mem_keys ?_ ?_
  · intro f hf
    obtain ⟨i, hi, hfi⟩ := holesOf_shape f hf
    have hc := @holes_count _ mx hnd
    subst hfi
    omega
  · intro n hn hmem
    have hk := maxKey_spec hmx _ hmem
    have hc := @holes_count _ mx hnd
    omega

/-- C6 (amended): for every compatible, non-empty `self` with distinct
keys, `merge_(self, other, reset_keys=True)` succeeds and assigns `other`'s
payloads, in `other`'s iteration order, first to the free keys computed by
the code — `set(range(max(self.keys()) + 1)) - set(self.keys())`, i.e. the
*non-negative* integers up to the maximum key that are not assigned — and
once those are exhausted to `len(self)`, `len(self)+1`, ..., all of which
exceed the previous maximum key; afterwards `self` holds its original
entries unchanged plus `len(other)` new entries, with no key assigned
twice. -/
theorem C6_merge_inplace_holes (a b : CD) (hcomp : compatible a b = true)
    (hne : a.content ≠ []) (hnd : (keysOf a.content).Nodup) :
    ∃ mx, maxKey a.content = some mx ∧
      merge_ a b true =
        (a.content ++ ((holesOf a.content mx).zip (b.content.map Prod.snd) ++
          enumFrom ((a.content.length + (holesOf a.content mx).length : Nat) : Int)
            ((b.content.map Prod.snd).drop (holesOf a.content mx).length)), none) ∧
      (∀ k v, dlookup a.content k = some v →
        dlookup (merge_ a b true).1 k = some v) ∧
      (merge_ a b true).1.length = a.content.length + b.content.length ∧
      (keysOf (merge_ a b true).1).Nodup ∧
      (∀ p ∈ (holesOf a.content mx).zip (b.content.map Prod.snd), p.1 ≤ mx) ∧
      (∀ p ∈ enumFrom ((a.content.length + (holesOf a.content mx).length : Nat) : Int)
          ((b.content.map Prod.snd).drop (holesOf a.content mx).length), mx < p.1) := by
  obtain ⟨mx, hmx, heq⟩ := merge_reset_characterization a b hcomp hne hnd
  have hc := @holes_count _ mx hnd
  have heq2 : merge_ a b true =
      (a.content ++ ((holesOf a.content mx).zip (b.content.map Prod.snd) ++
        enumFrom ((a.content.length + (holesOf a.content mx).length : Nat) : Int)
          ((b.content.map Prod.snd).drop (holesOf a.content mx).length)), none) := by
    rw [heq, mergeTail_eq]
  have hzip_le : ∀ p ∈ (holesOf a.content mx).zip (b.content.map Prod.snd), p.1 ≤ mx := by
    intro p hp
    have hmem := (List.of_mem_zip hp).1
    obtain ⟨i, hi, hfi⟩ := holesOf_shape p.1 hmem
    rw [hfi]
    omega
  have henum_gt : ∀ p ∈ enumFrom
      ((a.content.length + (holesOf a.content mx).length : Nat) : Int)
      ((b.content.map Prod.snd).drop (holesOf a.content mx).length), mx < p.1 := by
    intro p hp
    have := (mem_enumFrom hp).1
    omega
  refine ⟨mx, hmx, heq2, ?_, ?_, ?_, hzip_le, henum_gt⟩
  · intro k v h
    rw [heq2]
    exact dlookup_append_left h _
  · rw [heq2]
    simp only [List.length_append, List.length_zip, enumFrom_length, List.length_drop,
      List.length_map]
    omega
  · rw [heq2]
    simp only []
    rw [keysOf_append, keysOf_append]
    rw [List.nodup_append]
    refine ⟨hnd, ?_, ?_⟩
    · rw [List.nodup_append]
      refine ⟨?_, ?_, ?_⟩
      · rw [keysOf_zip]
        exact List.Nodup.sublist (List.take_sublist _ _) (holesOf_nodup _ _)
      · rw [keysOf_enumFrom]
        refine List.Nodup.map ?_ (List.nodup_range _)
        intro i j hij
        have hij2 : ((a.content.length + (holesOf a.content mx).length : Nat) : Int) + (i : Int)
            = ((a.content.length + (holesOf a.content mx).length : Nat) : Int) + (j : Int) := hij
        omega
      · intro x hx1 hx2
        rw [keysOf_zip] at hx1
        have hxh : x ∈ holesOf a.content mx := List.take_subset _ _ hx1
        obtain ⟨i, hi, hfi⟩ := holesOf_shape x hxh
        have hrange := mem_keysOf_enumFrom hx2
        omega
    · intro x hx1 hx2
      have hle := maxKey_spec hmx x hx1
      rcases List.mem_append.mp hx2 with h2 | h2
      · rw [keysOf_zip] at h2
        exact (holesOf_not_mem_keys x (List.take_subset _ _ h2)) hx1
      · have hrange := mem_keysOf_enumFrom h2
        omega

/-- C6 counterexample: with `self = {-1: [1]}` and `other = {0: [2]}` and
`reset_keys=True`, the integer `-2` is unassigned and below
`max(self.keys()) = -1` — a key hole in the claim's own wording — yet the
new entry is given key `1`, above the previous maximum, and no hole is
filled: the code only considers *non-negative* candidates from
`range(max + 1)`. -/
theorem C6_counterexample :
    merge_ negKeyDict bz2DictB true = ([(-1, [1]), (1, [2])], none) ∧
    (-2 : Int) < -1 ∧ (-2 : Int) ∉ keysOf [(-1, [1]), (1, [2])] ∧
    ¬((1 : Int) < -1) := by decide

/-- Witness for C6: a dictionary with key 5 only (holes 0..4); the single
entry of the other dictionary is assigned the first hole. -/
theorem C6_witness :
    (merge_ key5Dict bz2DictB true).2 = none ∧
    (merge_ key5Dict bz2DictB true).1.length =
      key5Dict.content.length + bz2DictB.content.length := by
  obtain ⟨mx, hmx, heq, hpres, hlen, hnd2, hzip, henum⟩ :=
    C6_merge_inplace_holes key5Dict bz2DictB (by decide) (by decide) (by decide)
  constructor
  · rw [heq]
  · exact hlen


/-! ### Slicing lemmas for split -/

theorem join_slices {α : Type} (l : List α) (f : Nat → Nat)
    (hf : ∀ i, f i ≤ f (i + 1)) (h0 : f 0 = 0) :
    ∀ p, ((List.range p).map (fun i => (l.drop (f i)).take (f (i + 1) - f i))).flatten
      = l.take (f p) := by
  intro p
  induction p with
  | zero => simp [h0]
  | succ p ih =>
    rw [List.range_succ, List.map_append, List.flatten_append, ih]
    simp only [List.map_cons, List.map_nil, List.flatten_cons, List.flatten_nil,
      List.append_nil]
    have hstep : f (p + 1) = f p + (f (p + 1) - f p) := by
      have := hf p
      omega
    have harith : f p + (f (p + 1) - f p) - f p = f (p + 1) - f p := by omega
    rw [hstep, List.take_add, harith]

theorem dlookup_of_mem_nodup {l : List (Int × Bytes)} (hnd : (keysOf l).Nodup)
    {k : Int} {v : Bytes} (hmem : (k, v) ∈ l) : dlookup l k = some v := by
  induction l with
  | nil => simp at hmem
  | cons p r ih =>
    have hcons : keysOf (p :: r) = p.1 :: keysOf r := rfl
    rw [hcons] at hnd
    rcases List.mem_cons.mp hmem with h1 | h1
    · rw [← h1, dlookup]
      simp
    · have hkr : k ∈ keysOf r := List.mem_map_of_mem Prod.fst h1
      have hne : p.1 ≠ k := by
        intro hEq
        exact (List.nodup_cons.mp hnd).1 (hEq ▸ hkr)
      rw [dlookup, if_neg (by simp [hne])]
      exact ih (List.nodup_cons.mp hnd).2 h1

theorem map_lookup_eq_self {d : CD} (hnd : (keysOf d.content).Nodup) :
    ∀ (cs : List (Int × Bytes)), (∀ pv ∈ cs, pv ∈ d.content) →
      (keysOf cs).map (fun k => (k, (dlookup d.content k).getD [])) = cs := by
  intro cs
  induction cs with
  | nil => intro _; rfl
  | cons pv r ih =>
    intro hsub
    obtain ⟨k, v⟩ := pv
    have hl : dlookup d.content k = some v :=
      dlookup_of_mem_nodup hnd (hsub (k, v) (by simp))
    have hcons : keysOf ((k, v) :: r) = k :: keysOf r := rfl
    rw [hcons, List.map_cons]
    simp only [hl, Option.getD_some]
    rw [ih (fun q hq => hsub q (by simp [hq]))]

theorem splitFillLoop_noreset (d : CD) (ks : List Int) :
    ∀ (i : Nat) (acc : List (Int × Bytes)), ks.Nodup →
      (∀ k ∈ ks, k ∉ keysOf acc) →
      splitFillLoop d false ks i acc =
        acc ++ ks.map (fun k => (k, (dlookup d.content k).getD [])) := by
  induction ks with
  | nil => intro i acc _ _; simp [splitFillLoop]
  | cons k r ih =>
    intro i acc hnd hdisj
    have hstep : splitFillLoop d false (k :: r) i acc =
        splitFillLoop d false r (i + 1) (dinsert acc k ((dlookup d.content k).getD [])) := by
      simp [splitFillLoop]
    rw [hstep, dinsert_of_not_mem _ (hdisj k (by simp)),
      ih (i + 1) _ (List.nodup_cons.mp hnd).2 ?disj]
    · simp
    case disj =>
      intro k2 hk2
      rw [keysOf_append]
      simp only [List.mem_append, not_or]
      refine ⟨hdisj k2 (by simp [hk2]), ?_⟩
      have hne : k2 ≠ k := fun hEq => (List.nodup_cons.mp hnd).1 (hEq ▸ hk2)
      simp [keysOf, hne]

theorem slice_size_arith (L p i kq m : Nat) (hkq : kq = L / p) (hm : m = L % p)
    (hp1 : 1 ≤ p) (hiP : i < p) (hb : (i + 1) * kq + min (i + 1) m ≤ L) :
    min ((i + 1) * kq + min (i + 1) m - (i * kq + min i m)) (L - (i * kq + min i m)) =
      kq + if i < m then 1 else 0 := by
  have hsm : (i + 1) * kq = i * kq + kq := by rw [Nat.succ_mul]
  rcases Nat.lt_or_ge i m with hlt | hge
  · rw [if_pos hlt]
    omega
  · rw [if_neg (by omega)]
    omega

/-! ### Claim C8 -/

/-- C8: for `1 ≤ p ≤ len(d)` (distinct keys), `split(parts=p)` with no
shuffle and no drop_last yields exactly `p` dictionaries carrying `d`'s
compression whose contents, concatenated in order, are exactly `d`'s
entries (so the key groups are pairwise disjoint and their union is `d`'s
key set), and whose sizes are `len/p + 1` for exactly the first
`len mod p` groups and `len/p` for the rest. -/
theorem C8_split_parts (d : CD) (p : Nat) (hp1 : 1 ≤ p) (hp2 : p ≤ d.content.length)
    (hnd : (keysOf d.content).Nodup) :
    ∃ out, split d (some p) none false false = .ok out ∧
      out.length = p ∧
      (out.map CD.content).flatten = d.content ∧
      (∀ cd ∈ out, cd.compression = d.compression) ∧
      out.map (fun cd => cd.content.length) =
        (List.range p).map (fun i => d.content.length / p +
          if i < d.content.length % p then 1 else 0) ∧
      List.Pairwise List.Disjoint (out.map (fun cd => keysOf cd.content)) := by
  have hL : (keysOf d.content).length = d.content.length := by simp [keysOf]
  set L := d.content.length with hLdef
  set kq := L / p with hkq
  set m := L % p with hm
  have hf : ∀ i, i * kq + min i m ≤ (i + 1) * kq + min (i + 1) m := by
    intro i
    have h1 : i * kq ≤ (i + 1) * kq := Nat.mul_le_mul_right kq (by omega)
    have h2 : min i m ≤ min (i + 1) m := min_le_min (by omega) (le_refl m)
    omega
  have hmono : ∀ i j, i ≤ j → i * kq + min i m ≤ j * kq + min j m := by
    intro i j hij
    have h1 : i * kq ≤ j * kq := Nat.mul_le_mul_right kq hij
    have h2 : min i m ≤ min j m := min_le_min hij (le_refl m)
    omega
  have hfp : p * kq + min p m = L := by
    have hdm := Nat.div_add_mod L p
    have hmlt : m < p := Nat.mod_lt L (by omega)
    have : min p m = m := by omega
    rw [this, hkq, hm]
    omega
  -- the content slices
  have hslices : splitSlices (keysOf d.content) p =
      (List.range p).map (fun i =>
        ((keysOf d.content).drop (i * kq + min i m)).take
          ((i + 1) * kq + min (i + 1) m - (i * kq + min i m))) := by
    unfold splitSlices
    rw [hL]
  have hkeyslice : ∀ i, ((keysOf d.content).drop (i * kq + min i m)).take
      ((i + 1) * kq + min (i + 1) m - (i * kq + min i m)) =
      keysOf ((d.content.drop (i * kq + min i m)).take
        ((i + 1) * kq + min (i + 1) m - (i * kq + min i m))) := by
    intro i
    unfold keysOf
    rw [List.map_take, List.map_drop]
  have hsubl : ∀ a b : Nat, ((d.content.drop a).take b).Sublist d.content :=
    fun a b => List.Sublist.trans (List.take_sublist _ _) (List.drop_sublist _ _)
  have hfill : ∀ i, splitFillLoop d false
      (((keysOf d.content).drop (i * kq + min i m)).take
        ((i + 1) * kq + min (i + 1) m - (i * kq + min i m))) 0 [] =
      (d.content.drop (i * kq + min i m)).take
        ((i + 1) * kq + min (i + 1) m - (i * kq + min i m)) := by
    intro i
    rw [hkeyslice i]
    rw [splitFillLoop_noreset d _ 0 [] ?nd (by simp [keysOf])]
    · rw [List.nil_append]
      exact map_lookup_eq_self hnd _ (fun pv hpv => (hsubl _ _).subset hpv)
    case nd =>
      rw [← hkeyslice i]
      exact List.Nodup.sublist
        (List.Sublist.trans (List.take_sublist _ _) (List.drop_sublist _ _)) hnd
  have hout : split d (some p) none false false = .ok
      (((List.range p).map (fun i =>
        ((keysOf d.content).drop (i * kq + min i m)).take
          ((i + 1) * kq + min (i + 1) m - (i * kq + min i m)))).map
        (fun ks => (⟨d.compression, splitFillLoop d false ks 0 []⟩ : CD))) := by
    have hsplit : split d (some p) none false false = splitParts d p false false := rfl
    rw [hsplit]
    unfold splitParts
    rw [if_neg (by omega)]
    simp only [hslices]
    rw [if_neg (by simp)]
  rw [List.map_map] at hout
  have hcongr : ∀ i ∈ List.range p,
      ((fun ks => (⟨d.compression, splitFillLoop d false ks 0 []⟩ : CD)) ∘ (fun i =>
        ((keysOf d.content).drop (i * kq + min i m)).take
          ((i + 1) * kq + min (i + 1) m - (i * kq + min i m)))) i =
      (⟨d.compression, (d.content.drop (i * kq + min i m)).take
          ((i + 1) * kq + min (i + 1) m - (i * kq + min i m))⟩ : CD) := by
    intro i _
    simp only [Function.comp_apply]
    rw [hfill i]
  rw [List.map_congr_left hcongr] at hout
  refine ⟨_, hout, by simp, ?_, ?_, ?_, ?_⟩
  · -- flatten
    rw [List.map_map]
    have : (List.map (CD.content ∘ fun i =>
        (⟨d.compression, (d.content.drop (i * kq + min i m)).take
            ((i + 1) * kq + min (i + 1) m - (i * kq + min i m))⟩ : CD)) (List.range p)) =
        (List.range p).map (fun i =>
          (d.content.drop (i * kq + min i m)).take
            ((i + 1) * kq + min (i + 1) m - (i * kq + min i m))) := by
      refine List.map_congr_left ?_
      intro i _
      rfl
    rw [this, join_slices d.content (fun i => i * kq + min i m) hf (by simp), hfp]
    exact List.take_length d.content
  · intro cd hcd
    obtain ⟨i, _, hcd2⟩ := List.mem_map.mp hcd
    rw [← hcd2]
  · -- sizes
    rw [List.map_map]
    refine List.map_congr_left ?_
    intro i hi
    simp only [Function.comp_apply]
    have hiP : i < p := List.mem_range.mp hi
    have hbound : (i + 1) * kq + min (i + 1) m ≤ L := by
      have := hmono (i + 1) p (by omega)
      omega
    rw [List.length_take, List.length_drop, ← hLdef]
    exact slice_size_arith L p i kq m hkq hm hp1 hiP hbound
  · -- pairwise disjoint keys
    have hflatkeys : ((List.map (fun cd => keysOf cd.content)
        ((List.range p).map (fun i =>
          (⟨d.compression, (d.content.drop (i * kq + min i m)).take
              ((i + 1) * kq + min (i + 1) m - (i * kq + min i m))⟩ : CD))))).flatten =
        keysOf d.content := by
      rw [List.map_map]
      have hmk : (List.map ((fun cd => keysOf cd.content) ∘ fun i =>
          (⟨d.compression, (d.content.drop (i * kq + min i m)).take
              ((i + 1) * kq + min (i + 1) m - (i * kq + min i m))⟩ : CD)) (List.range p)) =
          (List.range p).map (fun i =>
            ((keysOf d.content).drop (i * kq + min i m)).take
              ((i + 1) * kq + min (i + 1) m - (i * kq + min i m))) := by
        refine List.map_congr_left ?_
        intro i _
        simp only [Function.comp_apply]
        rw [hkeyslice i]
      rw [hmk, join_slices (keysOf d.content) (fun i => i * kq + min i m) hf (by simp)]
      rw [hfp, ← hL]
      exact List.take_length _
    have hflatnodup : ((List.map (fun cd => keysOf cd.content)
        ((List.range p).map (fun i =>
          (⟨d.compression, (d.content.drop (i * kq + min i m)).take
              ((i + 1) * kq + min (i + 1) m - (i * kq + min i m))⟩ : CD))))).flatten.Nodup := by
      rw [hflatkeys]
      exact hnd
    exact (List.nodup_flatten.mp hflatnodup).2

/-- Witness for C8: the spec's concrete scenario — a 17-entry dictionary
split into 2 parts has sizes 9 and 8. -/
theorem C8_witness :
    (∃ out, split seventeenDict (some 2) none false false = .ok out ∧
      out.length = 2 ∧
      (out.map CD.content).flatten = seventeenDict.content ∧
      (∀ cd ∈ out, cd.compression = seventeenDict.compression) ∧
      out.map (fun cd => cd.content.length) =
        (List.range 2).map (fun i => seventeenDict.content.length / 2 +
          if i < seventeenDict.content.length % 2 then 1 else 0) ∧
      List.Pairwise List.Disjoint (out.map (fun cd => keysOf cd.content))) ∧
    (List.range 2).map (fun i => seventeenDict.content.length / 2 +
        if i < seventeenDict.content.length % 2 then 1 else 0) = [9, 8] :=
  ⟨C8_split_parts seventeenDict 2 (by decide) (by decide) (by decide), by decide⟩


/-! ### The combine_on_disk copy loop on dumped files -/

theorem diskCopyLoop_done {oc fc : String} {reset : Bool} {st : DiskState}
    {fd rest : Bytes} (h : read_key_value_line fd = (.ok none, rest)) :
    diskCopyLoop oc fc reset st fd = .ok st := by
  unfold diskCopyLoop
  split
  · next e r2 heq => rw [h] at heq; simp at heq
  · rfl
  · next k v r2 heq => rw [h] at heq; simp at heq

theorem diskCopyLoop_step {oc fc : String} {reset : Bool} {st : DiskState}
    {fd rest : Bytes} {k : Int} {v : Bytes}
    (h : read_key_value_line fd = (.ok (some (k, v)), rest)) :
    diskCopyLoop oc fc reset st fd =
      match (if fc == oc then .ok v else convertValue v fc oc : Except PyErr Bytes) with
      | .error e => .error e
      | .ok v2 =>
        match diskWriteRecord reset st k v2 with
        | .error e => .error e
        | .ok st2 => diskCopyLoop oc fc reset st2 rest := by
  conv_lhs => unfold diskCopyLoop
  split
  · next e r2 heq => rw [h] at heq; simp at heq
  · next r2 heq => rw [h] at heq; simp at heq
  · next k2 v2 r2 heq =>
    rw [h] at heq
    injection heq with h1 h2
    injection h1 with h3
    injection h3 with h4
    injection h4 with hk hv
    subst hk
    subst hv
    subst h2
    rfl

/-- On the entry section of a dump, with source and output compressions
equal, the copy loop of `combine_on_disk` is the pure record-writing fold. -/
theorem diskCopyLoop_dumpEntries (c : String) (reset : Bool)
    (l : List (Int × Bytes)) :
    ∀ {body : Bytes}, dumpEntries l = some body → ∀ st,
      diskCopyLoop c c reset st body = diskWriteEntries reset st l := by
  induction l with
  | nil =>
    intro body hd st
    simp only [dumpEntries, Option.some.injEq] at hd
    subst hd
    rw [diskCopyLoop_done (show read_key_value_line [] = (.ok none, []) from rfl)]
    rfl
  | cons p r ih =>
    intro body hd st
    obtain ⟨k, v⟩ := p
    cases hw : write_key_value_line k v with
    | none => rw [dumpEntries, hw] at hd; simp at hd
    | some line =>
      cases hr : dumpEntries r with
      | none => rw [dumpEntries, hw, hr] at hd; simp at hd
      | some rest2 =>
        rw [dumpEntries, hw, hr] at hd
        simp only [Option.some.injEq] at hd
        subst hd
        rw [diskCopyLoop_step (read_key_value_line_write hw rest2)]
        have hcc : (c == c) = true := by simp
        rw [if_pos hcc]
        have hstep : diskWriteEntries reset st ((k, v) :: r) =
            match diskWriteRecord reset st k v with
            | .error e => .error e
            | .ok st2 => diskWriteEntries reset st2 r := rfl
        rw [hstep]
        cases hrec : diskWriteRecord reset st k v with
        | error e =>
          dsimp only
          rw [hrec]
        | ok st2 =>
          dsimp only
          rw [hrec]
          exact ih hr st2

theorem dumpEntries_wf {l : List (Int × Bytes)} :
    ∀ {b : Bytes}, dumpEntries l = some b →
      ∀ p ∈ l, -(2 ^ 31) ≤ p.1 ∧ p.1 < 2 ^ 31 ∧ 4 + p.2.length < 2 ^ 32 := by
  induction l with
  | nil => intro b _ p hp; simp at hp
  | cons q r ih =>
    intro b hd p hp
    obtain ⟨k, v⟩ := q
    cases hw : write_key_value_line k v with
    | none => rw [dumpEntries, hw] at hd; simp at hd
    | some line =>
      cases hr : dumpEntries r with
      | none => rw [dumpEntries, hw, hr] at hd; simp at hd
      | some rest2 =>
        rcases List.mem_cons.mp hp with h1 | h1
        · subst h1
          have hpack : ∃ data, packKeyValue k v = some data ∧
              write_line data = some line := by
            unfold write_key_value_line at hw
            cases hq : packKeyValue k v with
            | none => rw [hq] at hw; exact absurd hw (by simp)
            | some data => rw [hq] at hw; exact ⟨data, rfl, hw⟩
          obtain ⟨data, hq, hwl⟩ := hpack
          obtain ⟨⟨hk1, hk2⟩, hdata⟩ := packKeyValue_eq hq
          obtain ⟨hlen, _⟩ := write_line_eq hwl
          refine ⟨hk1, hk2, ?_⟩
          rw [hdata, List.length_append, natToLE_length] at hlen
          have h256 : (256 : Nat) ^ LINE_LENGTH_BYTES = 2 ^ 32 := by
            rw [LINE_LENGTH_BYTES]
            norm_num
          rw [h256] at hlen
          show 4 + v.length < 2 ^ 32
          omega
        · exact ih hr p h1

theorem dumpEntries_append {l1 l2 : List (Int × Bytes)} :
    ∀ {b1 b2 : Bytes}, dumpEntries l1 = some b1 → dumpEntries l2 = some b2 →
      dumpEntries (l1 ++ l2) = some (b1 ++ b2) := by
  induction l1 with
  | nil =>
    intro b1 b2 h1 h2
    simp only [dumpEntries, Option.some.injEq] at h1
    subst h1
    simpa using h2
  | cons p r ih =>
    intro b1 b2 h1 h2
    obtain ⟨k, v⟩ := p
    cases hw : write_key_value_line k v with
    | none => rw [dumpEntries, hw] at h1; simp at h1
    | some line =>
      cases hr : dumpEntries r with
      | none => rw [dumpEntries, hw, hr] at h1; simp at h1
      | some rest2 =>
        rw [dumpEntries, hw, hr] at h1
        simp only [Option.some.injEq] at h1
        subst h1
        rw [List.cons_append, dumpEntries, hw, ih hr h2]
        simp


theorem contains_eq_false_of_not_mem {l : List Int} {k : Int} (h : k ∉ l) :
    l.contains k = false := by
  cases hc : l.contains k
  · rfl
  · exact absurd (by simpa using hc) h

theorem diskWriteEntries_reset (l : List (Int × Bytes)) :
    ∀ (st : DiskState) {body2 : Bytes},
      dumpEntries (enumFrom st.newKey (l.map Prod.snd)) = some body2 →
      diskWriteEntries true st l =
        .ok ⟨st.newKey + (l.length : Int), st.resKeys, st.out ++ body2⟩ := by
  induction l with
  | nil =>
    intro st body2 hd
    simp only [List.map_nil, enumFrom, dumpEntries, Option.some.injEq] at hd
    subst hd
    simp [diskWriteEntries]
  | cons p r ih =>
    intro st body2 hd
    obtain ⟨k, v⟩ := p
    have henum : enumFrom st.newKey (((k, v) :: r).map Prod.snd) =
        (st.newKey, v) :: enumFrom (st.newKey + 1) (r.map Prod.snd) := rfl
    rw [henum] at hd
    cases hw : write_key_value_line st.newKey v with
    | none => rw [dumpEntries, hw] at hd; simp at hd
    | some line =>
      cases hr : dumpEntries (enumFrom (st.newKey + 1) (r.map Prod.snd)) with
      | none => rw [dumpEntries, hw, hr] at hd; simp at hd
      | some rest2 =>
        rw [dumpEntries, hw, hr] at hd
        simp only [Option.some.injEq] at hd
        subst hd
        have hstep : diskWriteEntries true st ((k, v) :: r) =
            match diskWriteRecord true st k v with
            | .error e => .error e
            | .ok st2 => diskWriteEntries true st2 r := rfl
        have hrec : diskWriteRecord true st k v =
            .ok ⟨st.newKey + 1, st.resKeys, st.out ++ line⟩ := by
          unfold diskWriteRecord
          rw [if_pos rfl, hw]
        rw [hstep, hrec]
        dsimp only
        rw [ih ⟨st.newKey + 1, st.resKeys, st.out ++ line⟩ hr]
        have harith : st.newKey + 1 + (r.length : Int) =
            st.newKey + ((((k, v) :: r).length : Nat) : Int) := by
          simp only [List.length_cons]
          push_cast
          ring
        rw [harith, List.append_assoc]

theorem diskWriteEntries_noreset (l : List (Int × Bytes)) :
    ∀ (st : DiskState) {body2 : Bytes}, dumpEntries l = some body2 →
      (keysOf l).Nodup → (∀ k ∈ keysOf l, k ∉ st.resKeys) →
      diskWriteEntries false st l =
        .ok ⟨st.newKey, (keysOf l).reverse ++ st.resKeys, st.out ++ body2⟩ := by
  induction l with
  | nil =>
    intro st body2 hd _ _
    simp only [dumpEntries, Option.some.injEq] at hd
    subst hd
    simp [diskWriteEntries, keysOf]
  | cons p r ih =>
    intro st body2 hd hnd hdisj
    obtain ⟨k, v⟩ := p
    have hkeys : keysOf ((k, v) :: r) = k :: keysOf r := rfl
    rw [hkeys] at hnd hdisj ⊢
    cases hw : write_key_value_line k v with
    | none => rw [dumpEntries, hw] at hd; simp at hd
    | some line =>
      cases hr : dumpEntries r with
      | none => rw [dumpEntries, hw, hr] at hd; simp at hd
      | some rest2 =>
        rw [dumpEntries, hw, hr] at hd
        simp only [Option.some.injEq] at hd
        subst hd
        have hstep : diskWriteEntries false st ((k, v) :: r) =
            match diskWriteRecord false st k v with
            | .error e => .error e
            | .ok st2 => diskWriteEntries false st2 r := rfl
        have hnomem : st.resKeys.contains k = false :=
          contains_eq_false_of_not_mem (hdisj k (by simp))
        have hrec : diskWriteRecord false st k v =
            .ok ⟨st.newKey, k :: st.resKeys, st.out ++ line⟩ := by
          unfold diskWriteRecord
          rw [if_neg (by simp), if_neg (by simp; exact hdisj k (by simp)), hw]
        rw [hstep, hrec]
        dsimp only
        rw [ih ⟨st.newKey, k :: st.resKeys, st.out ++ line⟩ hr
          (List.nodup_cons.mp hnd).2 ?disj]
        case disj =>
          intro k2 hk2
          simp only [List.mem_cons, not_or]
          refine ⟨fun hEq => (List.nodup_cons.mp hnd).1 (hEq ▸ hk2), ?_⟩
          exact hdisj k2 (by simp [hk2])
        simp [List.reverse_cons, List.append_assoc]


theorem nodup_keysOf_enumFrom (vs : List Bytes) (n : Int) :
    (keysOf (enumFrom n vs)).Nodup := by
  rw [keysOf_enumFrom]
  refine List.Nodup.map ?_ (List.nodup_range _)
  intro a b hab
  have hab2 : n + (a : Int) = n + (b : Int) := hab
  omega

theorem foldl_max_keysOf_enumFrom (vs : List Bytes) :
    ∀ (n i : Int), (keysOf (enumFrom n vs)).foldl max i =
      if vs.isEmpty then i else max i (n + (vs.length : Int) - 1) := by
  induction vs with
  | nil => intro n i; rfl
  | cons v r ih =>
    intro n i
    have hcons : keysOf (enumFrom n (v :: r)) = n :: keysOf (enumFrom (n + 1) r) := rfl
    rw [hcons, List.foldl_cons, ih (n + 1) (max i n)]
    cases r with
    | nil =>
      simp only [List.isEmpty_nil, if_true, List.isEmpty_cons, if_false,
        List.length_cons, List.length_nil]
      push_cast
      omega
    | cons w rr =>
      simp only [List.isEmpty_cons, if_false, List.length_cons]
      push_cast
      omega

theorem maxKey_enumFrom_zero {vs : List Bytes} (h : vs ≠ []) :
    maxKey (enumFrom 0 vs) = some ((vs.length : Int) - 1) := by
  cases vs with
  | nil => exact absurd rfl h
  | cons v r =>
    have h1 : enumFrom 0 (v :: r) = ((0 : Int), v) :: enumFrom 1 r := rfl
    rw [h1, maxKey]
    congr 1
    rw [foldl_max_keysOf_enumFrom r 1 0]
    cases r with
    | nil => simp
    | cons w rr =>
      simp only [List.isEmpty_cons, if_false, List.length_cons]
      push_cast
      omega

theorem holesOf_enumFrom_zero (vs : List Bytes) :
    holesOf (enumFrom 0 vs) ((vs.length : Int) - 1) = [] := by
  unfold holesOf
  have htn : ((vs.length : Int) - 1 + 1).toNat = vs.length := by omega
  rw [htn]
  rw [List.filter_eq_nil_iff]
  intro k hk
  simp only [List.mem_map, List.mem_range] at hk
  obtain ⟨i, hi, hk⟩ := hk
  subst hk
  have hmem : ((i : Nat) : Int) ∈ keysOf (enumFrom 0 vs) := by
    rw [keysOf_enumFrom]
    exact List.mem_map.mpr ⟨i, List.mem_range.mpr hi, by omega⟩
  have hck := containsKey_iff.mpr hmem
  simp [hck]

theorem mergeInPlaceLoop_reset_append (entries : List (Int × Bytes)) :
    ∀ (alg : String) (vs : List Bytes),
      mergeInPlaceLoop entries true alg (enumFrom 0 vs) [] =
        (enumFrom 0 (vs ++ entries.map Prod.snd), none) := by
  induction entries with
  | nil => intro alg vs; simp [mergeInPlaceLoop]
  | cons p r ih =>
    intro alg vs
    obtain ⟨k, v⟩ := p
    have hstep : mergeInPlaceLoop ((k, v) :: r) true alg (enumFrom 0 vs) [] =
        mergeInPlaceLoop r true alg
          (dinsert (enumFrom 0 vs) (((enumFrom 0 vs).length : Nat) : Int) v) [] := rfl
    rw [hstep]
    have hkey : dinsert (enumFrom 0 vs) (((enumFrom 0 vs).length : Nat) : Int) v =
        enumFrom 0 (vs ++ [v]) := by
      rw [enumFrom_length]
      rw [dinsert_of_not_mem v ?hnm]
      case hnm =>
        intro hmem
        have hb := mem_keysOf_enumFrom hmem
        omega
      rw [enumFrom_append vs [v]]
      simp [enumFrom]
    rw [hkey, ih alg (vs ++ [v])]
    simp

theorem mergeInPlace_reset_contiguous (a other : CD) (hcomp : compatible a other = true)
    (hcont : a.content = enumFrom 0 (a.content.map Prod.snd))
    (hne : a.content ≠ []) :
    merge_ a other true =
      (enumFrom 0 (a.content.map Prod.snd ++ other.content.map Prod.snd), none) := by
  unfold merge_
  rw [if_neg (by simp [hcomp])]
  set vs := a.content.map Prod.snd with hvs
  have hvsne : vs ≠ [] := by
    intro hnil
    rw [hvs] at hnil
    exact hne (List.map_eq_nil_iff.mp hnil)
  rw [hcont, maxKey_enumFrom_zero hvsne]
  dsimp only
  rw [holesOf_enumFrom_zero]
  exact mergeInPlaceLoop_reset_append other.content a.compression vs

theorem combineFold_reset (rest : List CD) :
    ∀ (first : CD) (vs : List Bytes),
      first.content = enumFrom 0 vs →
      (rest ≠ [] → vs ≠ []) →
      (∀ d ∈ rest, compatible first d = true) →
      combineFold first rest true =
        ((⟨first.compression,
            enumFrom 0 (vs ++ (rest.map (fun d => d.content.map Prod.snd)).flatten)⟩ : CD),
         none) := by
  induction rest with
  | nil =>
    intro first vs hcont _ _
    simp only [List.map_nil, List.flatten_nil, List.append_nil, combineFold]
    rw [← hcont]
  | cons d ds ih =>
    intro first vs hcont hne hcompat
    have hvsne : vs ≠ [] := hne (by simp)
    have hfirstne : first.content ≠ [] := by
      rw [hcont]
      cases vs with
      | nil => exact absurd rfl hvsne
      | cons v r => simp [enumFrom]
    have hvs_eq : first.content.map Prod.snd = vs := by rw [hcont, enumFrom_map_snd]
    have hm := mergeInPlace_reset_contiguous first d (hcompat d (by simp))
      (by rw [hvs_eq]; exact hcont) hfirstne
    rw [hvs_eq] at hm
    have hstep : combineFold first (d :: ds) true =
        match merge_ first d true with
        | (c, some e) => ({ first with content := c }, some e)
        | (c, none) => combineFold { first with content := c } ds true := rfl
    rw [hstep, hm]
    dsimp only
    rw [ih { first with content := enumFrom 0 (vs ++ d.content.map Prod.snd) }
      (vs ++ d.content.map Prod.snd) rfl
      (fun _ hnil => hvsne (List.append_eq_nil.mp hnil).1)
      (fun d2 hd2 => hcompat d2 (List.mem_cons_of_mem _ hd2))]
    simp only [List.map_cons, List.flatten_cons]
    rw [List.append_assoc]

theorem mergeInPlaceLoop_noreset_append (entries : List (Int × Bytes)) :
    ∀ (alg : String) (selfC : List (Int × Bytes)) (free : List Int),
      (∀ k ∈ keysOf entries, k ∉ keysOf selfC) →
      (keysOf entries).Nodup →
      mergeInPlaceLoop entries false alg selfC free = (selfC ++ entries, none) := by
  induction entries with
  | nil => intro alg selfC free _ _; simp [mergeInPlaceLoop]
  | cons p r ih =>
    intro alg selfC free hdisj hnd
    obtain ⟨k, v⟩ := p
    have hkeys : keysOf ((k, v) :: r) = k :: keysOf r := rfl
    rw [hkeys] at hdisj hnd
    have hstep : mergeInPlaceLoop ((k, v) :: r) false alg selfC free =
        match containsGetItem alg selfC k with
        | .error e => (selfC, some e)
        | .ok true => (selfC, some (.duplicateKeyMergeInPlace k))
        | .ok false => mergeInPlaceLoop r false alg (dinsert selfC k v) free := rfl
    rw [hstep, containsGetItem_not_mem (hdisj k (by simp))]
    dsimp only
    rw [dinsert_of_not_mem v (hdisj k (by simp))]
    rw [ih alg (selfC ++ [(k, v)]) free ?disj (List.nodup_cons.mp hnd).2]
    · simp
    case disj =>
      intro k2 hk2
      rw [keysOf_append]
      simp only [List.mem_append, not_or]
      refine ⟨hdisj k2 (by simp [hk2]), ?_⟩
      have hne2 : k2 ≠ k := fun hEq => (List.nodup_cons.mp hnd).1 (hEq ▸ hk2)
      simp [keysOf, hne2]

theorem mergeInPlace_noreset_append (a other : CD) (hcomp : compatible a other = true)
    (hne : a.content ≠ [])
    (hdisj : ∀ k ∈ keysOf other.content, k ∉ keysOf a.content)
    (hnd : (keysOf other.content).Nodup) :
    merge_ a other false = (a.content ++ other.content, none) := by
  unfold merge_
  rw [if_neg (by simp [hcomp])]
  cases hmk : maxKey a.content with
  | none =>
    cases hcontent : a.content with
    | nil => exact absurd hcontent hne
    | cons p r => rw [hcontent, maxKey] at hmk; simp at hmk
  | some mx =>
    dsimp only
    exact mergeInPlaceLoop_noreset_append other.content a.compression a.content
      (holesOf a.content mx) hdisj hnd

theorem combineFold_noreset (rest : List CD) :
    ∀ (first : CD),
      (rest ≠ [] → first.content ≠ []) →
      (∀ d ∈ rest, compatible first d = true) →
      (keysOf first.content ++ (rest.map (fun d => keysOf d.content)).flatten).Nodup →
      combineFold first rest false =
        ((⟨first.compression, first.content ++ (rest.map CD.content).flatten⟩ : CD),
         none) := by
  induction rest with
  | nil =>
    intro first _ _ _
    simp only [List.map_nil, List.flatten_nil, List.append_nil, combineFold]
  | cons d ds ih =>
    intro first hne hcompat hnd
    have hfne : first.content ≠ [] := hne (by simp)
    simp only [List.map_cons, List.flatten_cons] at hnd
    rw [← List.append_assoc] at hnd
    have hpair : (keysOf first.content ++ keysOf d.content).Nodup :=
      (List.nodup_append.mp hnd).1
    obtain ⟨hndf, hndd, hdisj⟩ := List.nodup_append.mp hpair
    have hm := mergeInPlace_noreset_append first d (hcompat d (by simp)) hfne
      (fun k hk hkf => hdisj hkf hk) hndd
    have hstep : combineFold first (d :: ds) false =
        match merge_ first d false with
        | (c, some e) => ({ first with content := c }, some e)
        | (c, none) => combineFold { first with content := c } ds false := rfl
    rw [hstep, hm]
    dsimp only
    rw [ih { first with content := first.content ++ d.content }
      (fun _ hnil => hfne (List.append_eq_nil.mp hnil).1)
      (fun d2 hd2 => hcompat d2 (List.mem_cons_of_mem _ hd2))
      (by rw [keysOf_append]; exact hnd)]
    simp only [List.map_cons, List.flatten_cons]
    rw [List.append_assoc]


theorem dump_parts {d : CD} {file : Bytes} (h : dump d = some file) :
    ∃ hdr body, write_line (encodeSpecs d.compression) = some hdr ∧
      dumpEntries d.content = some body ∧ file = hdr ++ body := by
  unfold dump at h
  cases hh : write_line (encodeSpecs d.compression) with
  | none => rw [hh] at h; simp at h
  | some hdr =>
    rw [hh] at h
    cases hb : dumpEntries d.content with
    | none => rw [hb] at h; simp at h
    | some body =>
      rw [hb] at h
      simp only [Option.some.injEq] at h
      exact ⟨hdr, body, rfl, rfl, h.symm⟩

theorem diskWriteDicts_reset (contents : List (List (Int × Bytes))) :
    ∀ (st : DiskState),
      (∀ l ∈ contents, ∀ p ∈ l, 4 + p.2.length < 2 ^ 32) →
      (-(2 ^ 31) ≤ st.newKey) →
      (st.newKey + (((contents.map List.length).sum : Nat) : Int) ≤ 2 ^ 31) →
      ∃ body2,
        dumpEntries (enumFrom st.newKey
          ((contents.map (fun l => l.map Prod.snd)).flatten)) = some body2 ∧
        diskWriteDicts true st contents =
          .ok ⟨st.newKey + (((contents.map List.length).sum : Nat) : Int),
            st.resKeys, st.out ++ body2⟩ := by
  induction contents with
  | nil =>
    intro st _ _ _
    refine ⟨[], rfl, ?_⟩
    simp [diskWriteDicts]
  | cons l ls ih =>
    intro st hwf hlo hhi
    have hsum : ((l :: ls).map List.length).sum =
        l.length + (ls.map List.length).sum := by simp
    have hwf1 : ∀ p ∈ enumFrom st.newKey (l.map Prod.snd),
        -(2 ^ 31) ≤ p.1 ∧ p.1 < 2 ^ 31 ∧ 4 + p.2.length < 2 ^ 32 := by
      intro p hp
      have hb := mem_enumFrom hp
      have hv : p.2 ∈ l.map Prod.snd := by
        have h2 : p.2 ∈ (enumFrom st.newKey (l.map Prod.snd)).map Prod.snd :=
          List.mem_map_of_mem Prod.snd hp
        rwa [enumFrom_map_snd] at h2
      obtain ⟨q, hq, hqeq⟩ := List.mem_map.mp hv
      have hlen : (l.map Prod.snd).length = l.length := by simp
      rw [hsum] at hhi
      refine ⟨by omega, ?_, ?_⟩
      · rw [hlen] at hb
        omega
      · rw [← hqeq]
        exact hwf l (by simp) q hq
    obtain ⟨b1, hb1⟩ := dumpEntries_isSome hwf1
    have hlen1 : (l.map Prod.snd).length = l.length := by simp
    obtain ⟨b2, hb2, hd2⟩ := ih ⟨st.newKey + (l.length : Int), st.resKeys, st.out ++ b1⟩
      (fun l2 hl2 => hwf l2 (by simp [hl2]))
      (by dsimp only; omega)
      (by dsimp only; rw [hsum] at hhi; push_cast at hhi ⊢; omega)
    have hflat : (((l :: ls).map (fun l2 => l2.map Prod.snd)).flatten) =
        l.map Prod.snd ++ ((ls.map (fun l2 => l2.map Prod.snd)).flatten) := by simp
    have hb2' : dumpEntries (enumFrom (st.newKey + ((l.map Prod.snd).length : Int))
        ((ls.map (fun l2 => l2.map Prod.snd)).flatten)) = some b2 := by
      rw [hlen1]
      exact hb2
    refine ⟨b1 ++ b2, ?_, ?_⟩
    · rw [hflat, enumFrom_append]
      exact dumpEntries_append hb1 hb2'
    · have hstep : diskWriteDicts true st (l :: ls) =
          match diskWriteEntries true st l with
          | .error e => .error e
          | .ok st2 => diskWriteDicts true st2 ls := rfl
      rw [hstep, diskWriteEntries_reset l st hb1]
      dsimp only
      rw [hd2]
      dsimp only
      have harith : st.newKey + ((l.length : Nat) : Int) +
          ((((ls.map List.length).sum : Nat)) : Int) =
          st.newKey + (((((l :: ls).map List.length).sum : Nat)) : Int) := by
        rw [hsum]
        push_cast
        ring
      rw [harith, List.append_assoc]

theorem diskWriteDicts_noreset (contents : List (List (Int × Bytes))) :
    ∀ (st : DiskState),
      (∀ l ∈ contents, ∃ b, dumpEntries l = some b) →
      ((contents.map keysOf).flatten).Nodup →
      (∀ k ∈ (contents.map keysOf).flatten, k ∉ st.resKeys) →
      ∃ bodies, dumpEntries contents.flatten = some bodies ∧
        diskWriteDicts false st contents =
          .ok ⟨st.newKey, ((contents.map keysOf).flatten).reverse ++ st.resKeys,
            st.out ++ bodies⟩ := by
  induction contents with
  | nil =>
    intro st _ _ _
    refine ⟨[], rfl, ?_⟩
    simp [diskWriteDicts]
  | cons l ls ih =>
    intro st hdumps hnd hdisj
    simp only [List.map_cons, List.flatten_cons] at hnd hdisj
    obtain ⟨hndl, hndrest, hdisj2⟩ := List.nodup_append.mp hnd
    obtain ⟨b1, hb1⟩ := hdumps l (by simp)
    have hdisj3 : ∀ k ∈ (ls.map keysOf).flatten,
        k ∉ (keysOf l).reverse ++ st.resKeys := by
      intro k hk
      simp only [List.mem_append, List.mem_reverse, not_or]
      exact ⟨fun hkl => hdisj2 hkl hk, hdisj k (List.mem_append_right _ hk)⟩
    obtain ⟨b2, hb2, hd2⟩ := ih ⟨st.newKey, (keysOf l).reverse ++ st.resKeys, st.out ++ b1⟩
      (fun l2 hl2 => hdumps l2 (by simp [hl2]))
      hndrest
      hdisj3
    refine ⟨b1 ++ b2, ?_, ?_⟩
    · rw [List.flatten_cons]
      exact dumpEntries_append hb1 hb2
    · have hstep : diskWriteDicts false st (l :: ls) =
          match diskWriteEntries false st l with
          | .error e => .error e
          | .ok st2 => diskWriteDicts false st2 ls := rfl
      rw [hstep, diskWriteEntries_noreset l st hb1 hndl
        (fun k hk => hdisj k (List.mem_append_left _ hk))]
      dsimp only
      rw [hd2]
      simp [List.reverse_append, List.append_assoc]

theorem diskFilesLoop_dumped (c : String) (hc : check_valid_compression c = true)
    (reset : Bool) {ds : List CD} {files : List Bytes}
    (hfor : List.Forall₂ (fun d f => dump d = some f) ds files)
    (hcomp : ∀ d ∈ ds, d.compression = c) :
    ∀ st, diskFilesLoop c reset st files = diskWriteDicts reset st (ds.map CD.content) := by
  induction hfor with
  | nil => intro st; rfl
  | @cons d f ds2 fs2 hdf hrest ih =>
    intro st
    have hdc : d.compression = c := hcomp d (by simp)
    obtain ⟨hdr, body, hhdr, hbody, hfile⟩ := dump_parts hdf
    subst hfile
    have hread : read_line (hdr ++ body) = (some (encodeSpecs d.compression), body) :=
      read_line_write_line hhdr body
    have hstep : diskFilesLoop c reset st ((hdr ++ body) :: fs2) =
        match read_line (hdr ++ body) with
        | (none, _) => .error .attributeError
        | (some hdr2, rest) =>
          match decodeSpecs hdr2 with
          | none => .error .jsonError
          | some comp2 =>
            match diskCopyLoop c comp2 reset st rest with
            | .error e => .error e
            | .ok st2 => diskFilesLoop c reset st2 fs2 := rfl
    rw [hstep, hread]
    dsimp only
    rw [hdc, decodeSpecs_encodeSpecs hc]
    dsimp only
    rw [diskCopyLoop_dumpEntries c reset d.content hbody st]
    have hstep2 : diskWriteDicts reset st ((d :: ds2).map CD.content) =
        match diskWriteEntries reset st d.content with
        | .error e => .error e
        | .ok st2 => diskWriteDicts reset st2 (ds2.map CD.content) := rfl
    rw [hstep2]
    cases hrec : diskWriteEntries reset st d.content with
    | error e => dsimp only
    | ok st2 =>
      dsimp only
      exact ih (fun d2 hd2 => hcomp d2 (by simp [hd2])) st2

theorem combine_on_disk_dumped (c : String) (hc : check_valid_compression c = true)
    (reset : Bool) {ds : List CD} {files : List Bytes} (hne : ds ≠ [])
    (hfor : List.Forall₂ (fun d f => dump d = some f) ds files)
    (hcomp : ∀ d ∈ ds, d.compression = c) :
    ∃ hdrOut, write_line (encodeSpecs c) = some hdrOut ∧
      combine_on_disk files none reset =
        (match diskWriteDicts reset ⟨0, [], hdrOut⟩ (ds.map CD.content) with
          | .error e => .error e
          | .ok st => .ok st.out) := by
  obtain ⟨hdrOut, hwl⟩ := write_line_specs_isSome hc
  refine ⟨hdrOut, hwl, ?_⟩
  cases hfor with
  | nil => exact absurd rfl hne
  | @cons d f ds2 fs2 hdf hrest =>
    obtain ⟨hdr, body, hhdr, hbody, hfile⟩ := dump_parts hdf
    subst hfile
    have hdc : d.compression = c := hcomp d (by simp)
    have hread : read_line (hdr ++ body) = (some (encodeSpecs d.compression), body) :=
      read_line_write_line hhdr body
    have hstep : combine_on_disk ((hdr ++ body) :: fs2) none reset =
        match read_line (hdr ++ body) with
        | (none, _) => .error .attributeError
        | (some hdr0, _) =>
          match decodeSpecs hdr0 with
          | none => .error .jsonError
          | some firstComp =>
            match write_line (encodeSpecs ((none : Option String).getD firstComp)) with
            | none => .error .overflowError
            | some hdrOut2 =>
              match diskFilesLoop ((none : Option String).getD firstComp) reset
                  ⟨0, [], hdrOut2⟩ ((hdr ++ body) :: fs2) with
              | .error e => .error e
              | .ok st => .ok st.out := rfl
    rw [hstep, hread]
    dsimp only
    rw [hdc, decodeSpecs_encodeSpecs hc]
    simp only [Option.getD]
    rw [hwl]
    dsimp only
    rw [diskFilesLoop_dumped c hc reset
      (List.Forall₂.cons hdf hrest) hcomp ⟨0, [], hdrOut⟩]


theorem exists_rel_of_forall2 {α β : Type} {R : α → β → Prop} :
    ∀ {xs : List α} {ys : List β}, List.Forall₂ R xs ys → ∀ x ∈ xs, ∃ y, R x y := by
  intro xs ys h
  induction h with
  | nil => intro x hx; simp at hx
  | cons h1 h2 ih =>
    intro x hx
    rcases List.mem_cons.mp hx with h3 | h3
    · subst h3; exact ⟨_, h1⟩
    · exact ih x h3

/-- C9 (amended): combine_on_disk over dumped files agrees with the
in-memory combine, for dictionaries sharing one valid compression, when
(reset_keys=True) the first dictionary's keys are exactly the contiguous
sequence 0..len-1 in insertion order and the total entry count fits the
sequential int32 keys written to disk, and when (reset_keys=False) the
keys of all the inputs are pairwise distinct; in both cases a first
dictionary that is empty while further inputs follow is excluded (there the
in-memory `merge_` raises on `max(self.keys())` but the disk version
succeeds), as is (for reset) a first dictionary with any other key layout
(the disk version renumbers every record from 0 while `merge_` keeps
`self`'s keys; see the counterexample). -/
theorem C9_combine_on_disk_equiv (c : String) (ds : List CD) (files : List Bytes)
    (reset : Bool)
    (hc : check_valid_compression c = true)
    (hcomp : ∀ d ∈ ds, d.compression = c)
    (hfor : List.Forall₂ (fun d f => dump d = some f) ds files)
    (hne : ds ≠ [])
    (hfirst : ∀ d1 rest, ds = d1 :: rest → rest ≠ [] → d1.content ≠ [])
    (hreset : reset = true → ∀ d1 rest, ds = d1 :: rest →
       d1.content = enumFrom 0 (d1.content.map Prod.snd) ∧
       (ds.map (fun d => d.content.length)).sum ≤ 2 ^ 31)
    (hnoreset : reset = false →
       ((ds.map (fun d => keysOf d.content)).flatten).Nodup) :
    ∃ res outFile, combine ds reset = .ok res ∧
      combine_on_disk files none reset = .ok outFile ∧
      load outFile = .ok ⟨c, res.content⟩ := by
  cases ds with
  | nil => exact absurd rfl hne
  | cons d1 rest =>
    obtain ⟨hdrOut, hwl, hdisk⟩ := combine_on_disk_dumped c hc reset hne hfor hcomp
    have hd1c : d1.compression = c := hcomp d1 (by simp)
    have hcompat : ∀ d ∈ rest, compatible d1 d = true := by
      intro d hd
      have h2 : d.compression = c := hcomp d (by simp [hd])
      simp [compatible, hd1c, h2]
    have hall : rest.all (fun d => compatible d1 d) = true := by
      rw [List.all_eq_true]
      exact hcompat
    have hdumps : ∀ d ∈ (d1 :: rest), ∃ b, dumpEntries d.content = some b := by
      intro d hd
      obtain ⟨f, hdf⟩ := exists_rel_of_forall2 hfor d hd
      obtain ⟨hdr, body, _, hb, _⟩ := dump_parts hdf
      exact ⟨body, hb⟩
    have hpay : ∀ l ∈ (d1 :: rest).map CD.content, ∀ p ∈ l,
        4 + p.2.length < 2 ^ 32 := by
      intro l hl p hp
      obtain ⟨d, hd, hdl⟩ := List.mem_map.mp hl
      obtain ⟨b, hb⟩ := hdumps d hd
      subst hdl
      exact (dumpEntries_wf hb p hp).2.2
    cases reset with
    | true =>
      obtain ⟨hcont, htot⟩ := hreset rfl d1 rest rfl
      have hvne : rest ≠ [] → d1.content.map Prod.snd ≠ [] := by
        intro hr hnil
        exact hfirst d1 rest rfl hr (List.map_eq_nil_iff.mp hnil)
      have hfold := combineFold_reset rest d1 (d1.content.map Prod.snd) hcont hvne hcompat
      have hcp : combinePost (d1 :: rest) true =
          (.ok (⟨d1.compression, enumFrom 0 ((d1.content.map Prod.snd) ++
              (rest.map (fun d => d.content.map Prod.snd)).flatten)⟩ : CD),
           some (⟨d1.compression, enumFrom 0 ((d1.content.map Prod.snd) ++
              (rest.map (fun d => d.content.map Prod.snd)).flatten)⟩ : CD)) := by
        have hstep : combinePost (d1 :: rest) true =
            if rest.all (fun d => compatible d1 d) then
              match combineFold d1 rest true with
              | (res, none) => (.ok res, some res)
              | (res, some e) => (.error e, some res)
            else (.error .incompatible, some d1) := rfl
        rw [hstep, if_pos hall, hfold]
      have hmem : combine (d1 :: rest) true =
          .ok (⟨d1.compression, enumFrom 0 ((d1.content.map Prod.snd) ++
              (rest.map (fun d => d.content.map Prod.snd)).flatten)⟩ : CD) := by
        unfold combine
        rw [hcp]
      have hlen_eq : ((d1 :: rest).map CD.content).map List.length =
          (d1 :: rest).map (fun d => d.content.length) := by
        rw [List.map_map]
        rfl
      obtain ⟨body2, hbody2, hwd⟩ :=
        diskWriteDicts_reset ((d1 :: rest).map CD.content) ⟨0, [], hdrOut⟩ hpay
          (by norm_num)
          (by dsimp only; rw [hlen_eq]; omega)
      have hdisk2 : combine_on_disk files none true = .ok (hdrOut ++ body2) := by
        rw [hdisk, hwd]
      have hflat : ((((d1 :: rest).map CD.content).map (fun l => l.map Prod.snd)).flatten) =
          (d1.content.map Prod.snd) ++
            (rest.map (fun d => d.content.map Prod.snd)).flatten := by
        rw [List.map_map]
        simp only [List.map_cons, List.flatten_cons]
        rfl
      rw [hflat] at hbody2
      have hload := load_parts hc hwl hbody2 (nodup_keysOf_enumFrom _ 0)
      exact ⟨_, hdrOut ++ body2, hmem, hdisk2, hload⟩
    | false =>
      have hnd := hnoreset rfl
      have hndflat : (keysOf d1.content ++
          (rest.map (fun d => keysOf d.content)).flatten).Nodup := by
        simpa using hnd
      have hfold := combineFold_noreset rest d1 (hfirst d1 rest rfl) hcompat hndflat
      have hcp : combinePost (d1 :: rest) false =
          (.ok (⟨d1.compression, d1.content ++ (rest.map CD.content).flatten⟩ : CD),
           some (⟨d1.compression, d1.content ++ (rest.map CD.content).flatten⟩ : CD)) := by
        have hstep : combinePost (d1 :: rest) false =
            if rest.all (fun d => compatible d1 d) then
              match combineFold d1 rest false with
              | (res, none) => (.ok res, some res)
              | (res, some e) => (.error e, some res)
            else (.error .incompatible, some d1) := rfl
        rw [hstep, if_pos hall, hfold]
      have hmem : combine (d1 :: rest) false =
          .ok (⟨d1.compression, d1.content ++ (rest.map CD.content).flatten⟩ : CD) := by
        unfold combine
        rw [hcp]
      have hkeys_eq : ((d1 :: rest).map CD.content).map keysOf =
          (d1 :: rest).map (fun d => keysOf d.content) := by
        rw [List.map_map]
        rfl
      obtain ⟨bodies, hbodies, hwd⟩ :=
        diskWriteDicts_noreset ((d1 :: rest).map CD.content) ⟨0, [], hdrOut⟩
          (fun l hl => by
            obtain ⟨d, hd, hdl⟩ := List.mem_map.mp hl
            subst hdl
            exact hdumps d hd)
          (by rw [hkeys_eq]; exact hnd)
          (fun k _ => List.not_mem_nil k)
      have hdisk2 : combine_on_disk files none false = .ok (hdrOut ++ bodies) := by
        rw [hdisk, hwd]
      have hkf : (keysOf (((d1 :: rest).map CD.content).flatten)).Nodup := by
        have h1 : keysOf (((d1 :: rest).map CD.content).flatten) =
            ((((d1 :: rest).map CD.content).map keysOf).flatten) := by
          simp only [keysOf, List.map_flatten]
          rfl
        rw [h1, hkeys_eq]
        exact hnd
      have hload := load_parts hc hwl hbodies hkf
      have hflat2 : (((d1 :: rest).map CD.content).flatten) =
          d1.content ++ (rest.map CD.content).flatten := by
        simp
      rw [hflat2] at hload
      exact ⟨_, hdrOut ++ bodies, hmem, hdisk2, hload⟩

/-- C9 counterexample to the literal claim: a single dictionary whose only
key is 5.  The in-memory `combine` returns that dictionary unchanged (keys
`[5]`), while `combine_on_disk` with `reset_keys=True` renumbers every
record from 0, so loading the destination yields keys `[0]`: the two
results differ as key-value content. -/
theorem C9_counterexample :
    combine [key5Dict] true = .ok key5Dict ∧
    (∃ outFile, combine_on_disk [(dump key5Dict).getD []] none true = .ok outFile ∧
      load outFile = .ok ⟨"bz2", [((0 : Int), [1])]⟩) ∧
    key5Dict.content ≠ [((0 : Int), [1])] := by
  refine ⟨rfl, ?_, by decide⟩
  obtain ⟨hdrOut, hwl, hdisk⟩ :=
    @combine_on_disk_dumped "bz2" (by decide) true
      [key5Dict] [(dump key5Dict).getD []]
      (by simp)
      (List.Forall₂.cons rfl List.Forall₂.nil)
      (by intro d hd; simp at hd; subst hd; rfl)
  have hwd : diskWriteDicts true ⟨0, [], hdrOut⟩ ([key5Dict].map CD.content) =
      .ok ⟨1, [], hdrOut ++ ((write_key_value_line 0 [1]).getD [])⟩ := rfl
  have hdisk2 : combine_on_disk [(dump key5Dict).getD []] none true =
      .ok (hdrOut ++ ((write_key_value_line 0 [1]).getD [])) := by
    rw [hdisk, hwd]
  have hbody : dumpEntries [((0 : Int), [1])] =
      some ((write_key_value_line 0 [1]).getD []) := rfl
  have hload := load_parts (by decide : check_valid_compression "bz2" = true)
    hwl hbody (by decide)
  exact ⟨_, hdisk2, hload⟩


/-- Witness for C9 at a concrete input: a single bz2 dictionary with the
contiguous key 0, under `reset_keys=True`. -/
theorem C9_witness :
    ∃ res outFile, combine [bz2DictA] true = .ok res ∧
      combine_on_disk [(dump bz2DictA).getD []] none true = .ok outFile ∧
      load outFile = .ok ⟨"bz2", res.content⟩ :=
  C9_combine_on_disk_equiv "bz2" [bz2DictA] [(dump bz2DictA).getD []] true
    (by decide)
    (by intro d hd; simp at hd; subst hd; rfl)
    (List.Forall₂.cons rfl List.Forall₂.nil)
    (by simp)
    (by
      intro d1 rest h hr
      injection h with h1 h2
      rw [← h2] at hr
      exact absurd rfl hr)
    (by
      intro _ d1 rest h
      injection h with h1 h2
      subst h1
      subst h2
      exact ⟨rfl, by decide⟩)
    (fun h => Bool.noConfusion h)

end CompDict
